import Mathlib

/-!
Verification of the dependency-resolution core of pytask
(`src/pytask/resolve_dependencies.py`): the graph builder, the DAG
validator (cycle check and root-availability check) and the incremental
selector that marks unchanged tasks with a "skip_unchanged" marker.

The Python code is shallowly embedded: fingerprints are natural numbers
(opaque, equality-comparable values), a state query either yields a
fingerprint or fails (`NodeNotFoundError`, or any other fault), the
persisted state store is a function from a (task name, node name) pair to
an optional fingerprint, and exceptions are modelled with `Except` /
explicit error components.
-/

namespace Pytask

/-- An opaque, equality-comparable artifact fingerprint. -/
abbrev Fingerprint := Nat

/-- Outcome kind of a failing `node.state()` call: either the artifact does
not exist (`NodeNotFoundError` in the source) or any other fault (for
example a permission or I/O error). -/
inductive StateErr where
  | notFound
  | other
deriving DecidableEq, Repr

/-- The result of a `node.state()` call, fixed per node for one resolution
pass (the query is a side-effect-free read). -/
abbrev StateResult := Except StateErr Fingerprint

instance {ε α : Type} [DecidableEq ε] [DecidableEq α] : DecidableEq (Except ε α) := fun x y =>
  match x, y with
  | .ok a, .ok b =>
    if h : a = b then .isTrue (by rw [h]) else .isFalse (by simp [h])
  | .error a, .error b =>
    if h : a = b then .isTrue (by rw [h]) else .isFalse (by simp [h])
  | .ok _, .error _ => .isFalse (by simp)
  | .error _, .ok _ => .isFalse (by simp)

/-- A marker attached to a task (`pytask.mark.structures.Mark`); in this
module only `Mark("skip_unchanged", (), {})` is ever created, so the
(always empty) positional and keyword arguments are not modelled. -/
structure Mark where
  name : String
deriving DecidableEq, Repr

/-- A data node: a named artifact with its current-state capability. -/
structure DataNode where
  name : String
  state : StateResult
deriving DecidableEq, Repr

/-- A task declaration: name, dependency and product data nodes, the
mutable marker list, and the task's own state capability. -/
structure Task where
  name : String
  depends_on : List DataNode
  produces : List DataNode
  markers : List Mark
  state : StateResult
deriving DecidableEq, Repr

/-- The attribute dictionary of one graph node: it may hold a `task`
payload, a `node` (data) payload, both (networkx merges attributes on
repeated `add_node` calls with the same key), or neither. -/
structure NodeAttrs where
  task : Option Task
  node : Option DataNode
deriving DecidableEq, Repr

/-- Attribute dictionary with no payload (what `add_edge` materializes for
an endpoint that was never added explicitly). -/
def NodeAttrs.empty : NodeAttrs := ⟨none, none⟩

/-- A directed graph in the style of `networkx.DiGraph`: nodes in
insertion order, each carrying an attribute dictionary, plus a list of
directed edges in insertion order. -/
structure DiGraph where
  nodes : List (String × NodeAttrs)
  edges : List (String × String)
deriving DecidableEq, Repr

/-- The empty graph (`nx.DiGraph()`). -/
def DiGraph.empty : DiGraph := ⟨[], []⟩

/-- Names of the graph's nodes, in insertion order. -/
def DiGraph.names (g : DiGraph) : List String := g.nodes.map Prod.fst

/-- Attribute lookup `dag.nodes[name]`, `none` when absent. -/
def DiGraph.attr? (g : DiGraph) (name : String) : Option NodeAttrs :=
  (g.nodes.find? (fun p => p.1 == name)).map Prod.snd

/-- Whether `name` is a node of the graph. -/
def DiGraph.hasNode (g : DiGraph) (name : String) : Bool :=
  g.nodes.any (fun p => p.1 == name)

/-- Whether the node carries a task payload. -/
def DiGraph.hasTask (g : DiGraph) (name : String) : Bool :=
  match g.attr? name with
  | some a => a.task.isSome
  | none => false

/-- Direct predecessors of a node (`dag.predecessors`). -/
def DiGraph.preds (g : DiGraph) (name : String) : List String :=
  (g.edges.filter (fun e => e.2 == name)).map Prod.fst

/-- Direct successors of a node (`dag.successors`). -/
def DiGraph.succs (g : DiGraph) (name : String) : List String :=
  (g.edges.filter (fun e => e.1 == name)).map Prod.snd

/-- `dag.add_node(name, task=t)`: insert the node if absent, then set the
`task` key of its attribute dictionary (existing other keys survive). -/
def DiGraph.add_node_task (g : DiGraph) (name : String) (t : Task) : DiGraph :=
  if g.hasNode name then
    { g with nodes := g.nodes.map (fun p =>
        if p.1 == name then (p.1, { p.2 with task := some t }) else p) }
  else
    { g with nodes := g.nodes ++ [(name, ⟨some t, none⟩)] }

/-- `dag.add_node(name, node=d)`: insert the node if absent, then set the
`node` key of its attribute dictionary. -/
def DiGraph.add_node_data (g : DiGraph) (name : String) (d : DataNode) : DiGraph :=
  if g.hasNode name then
    { g with nodes := g.nodes.map (fun p =>
        if p.1 == name then (p.1, { p.2 with node := some d }) else p) }
  else
    { g with nodes := g.nodes ++ [(name, ⟨none, some d⟩)] }

/-- Ensure a bare node exists (the part of `add_edge` that materializes a
missing endpoint with an empty attribute dictionary). -/
def DiGraph.ensure_node (g : DiGraph) (name : String) : DiGraph :=
  if g.hasNode name then g
  else { g with nodes := g.nodes ++ [(name, NodeAttrs.empty)] }

/-- `dag.add_edge(u, v)`: materialize both endpoints, then insert the edge
if it is not already present (re-inserting is a no-op). -/
def DiGraph.add_edge (g : DiGraph) (u v : String) : DiGraph :=
  let g := (g.ensure_node u).ensure_node v
  if (u, v) ∈ g.edges then g else { g with edges := g.edges ++ [(u, v)] }

/-- Fold one task declaration into the graph, exactly as the loop body of
`pytask_resolve_dependencies_create_dag` does: add the task node, then for
each dependency add the data node and the edge dependency → task, then for
each product add the data node and the edge task → product. -/
def addTask (g : DiGraph) (t : Task) : DiGraph :=
  let g := g.add_node_task t.name t
  let g := t.depends_on.foldl
    (fun g dep => (g.add_node_data dep.name dep).add_edge dep.name t.name) g
  t.produces.foldl
    (fun g p => (g.add_node_data p.name p).add_edge t.name p.name) g

/-- `pytask_resolve_dependencies_create_dag(tasks)`. -/
def create_dag (tasks : List Task) : DiGraph :=
  tasks.foldl addTask DiGraph.empty

/-- Exceptions that can escape the validator or the selector. -/
inductive Exc where
  /-- `ResolvingDependenciesError(...)` raised by the cycle check; carries
  the cycle edge list that the source interpolates into the message. -/
  | cycleError (cycles : List (String × String))
  /-- `NodeNotFoundError(f"{node} is missing and a dependency of
  {successors}.")` raised by the root-availability check. -/
  | missingRoot (node : String) (successors : List String)
  /-- A `node.state()` fault other than `NodeNotFoundError`; it is caught
  nowhere in this module and propagates. -/
  | stateFault
  /-- A Python `KeyError` on the named dictionary key. -/
  | keyError (key : String)
deriving DecidableEq, Repr

/-- The persisted state store: `State[task_name, node_name].state`, with
`none` standing for `pony.orm.ObjectNotFound`. -/
abbrev StateDB := String → String → Option Fingerprint

/-- A walk in the graph given by its node list: `WalkP g u l v` holds when
starting from `u` and visiting the nodes of `l` in order, each step
follows an edge of `g`, ending at `v`. -/
def WalkP (g : DiGraph) : String → List String → String → Prop
  | u, [], v => u = v
  | u, w :: l, v => (u, w) ∈ g.edges ∧ WalkP g w l v

instance (g : DiGraph) (u : String) (l : List String) (v : String) :
    Decidable (WalkP g u l v) := by
  induction l generalizing u with
  | nil => exact inferInstanceAs (Decidable (u = v))
  | cons w l ih => exact @instDecidableAnd _ _ _ (ih w)

/-- `v` is reachable from `u` by a directed path in `g`. -/
def Reach (g : DiGraph) (u v : String) : Prop :=
  ∃ l, WalkP g u l v

/-- A walk given by its edge list: `EdgeWalk g u p v` holds when `p` is a
chained list of edges of `g` leading from `u` to `v`. -/
def EdgeWalk (g : DiGraph) : String → List (String × String) → String → Prop
  | u, [], v => u = v
  | u, e :: p, v => e.1 = u ∧ e ∈ g.edges ∧ EdgeWalk g e.2 p v

/-- Depth-bounded search for a directed path from `u` to `v`, returning
its edge list.  Used both to decide reachability (with fuel
`g.edges.length`, which suffices because a duplicate-free path never uses
more edges than the graph has) and to extract the cycle the validator
reports. -/
def findPathAux (g : DiGraph) : Nat → String → String → Option (List (String × String))
  | 0, u, v => if u = v then some [] else none
  | fuel + 1, u, v =>
    if u = v then some []
    else (g.succs u).findSome? (fun w =>
      (findPathAux g fuel w v).map (fun p => (u, w) :: p))

/-- Decidable reachability. -/
def ReachB (g : DiGraph) (u v : String) : Bool :=
  (findPathAux g g.edges.length u v).isSome

/-- Cycle search, modelled from the spec's description of the validator's
cycle check (the source delegates to the external
`networkx.algorithms.cycles.find_cycle`): return the edge list of some
directed cycle when one exists, `none` otherwise. -/
def find_cycle (g : DiGraph) : Option (List (String × String)) :=
  g.edges.findSome? (fun e =>
    (findPathAux g g.edges.length e.2 e.1).map (fun p => e :: p))

/-- `_check_if_dag_has_cycles(dag)`. -/
def _check_if_dag_has_cycles (g : DiGraph) : Except Exc Unit :=
  match find_cycle g with
  | none => .ok ()
  | some cycles => .error (.cycleError cycles)

/-- The body of one iteration of `_check_if_root_nodes_are_available`: a
node whose attribute dictionary has a `node` key and which has no
predecessors is a root; its state is queried, a `NodeNotFoundError`
becomes the missing-root error naming the node and its direct successors,
and any other state fault propagates.  `none` means the iteration moves
on. -/
def checkRootEntry (g : DiGraph) (name : String) (a : NodeAttrs) : Option Exc :=
  match a.node with
  | none => none
  | some d =>
    if g.preds name = [] then
      match d.state with
      | .error .notFound => some (.missingRoot name (g.succs name))
      | .error .other => some .stateFault
      | .ok _ => none
    else none

/-- The loop of `_check_if_root_nodes_are_available` over the remaining
node entries of `g.nodes`. -/
def checkRoots (g : DiGraph) : List (String × NodeAttrs) → Except Exc Unit
  | [] => .ok ()
  | (name, a) :: rest =>
    match checkRootEntry g name a with
    | some e => .error e
    | none => checkRoots g rest

/-- `_check_if_root_nodes_are_available(dag)`. -/
def _check_if_root_nodes_are_available (g : DiGraph) : Except Exc Unit :=
  checkRoots g g.nodes

/-- `pytask_resolve_dependencies_validate_dag(dag)`: cycle check first,
then root availability. -/
def pytask_resolve_dependencies_validate_dag (g : DiGraph) : Except Exc Unit := do
  _check_if_dag_has_cycles g
  _check_if_root_nodes_are_available g

/-- The name and state of the payload `_has_node_changed` operates on:
`node_dict.get("task", None) or node_dict["node"]` prefers the task
payload and falls back to the data payload. -/
def NodeAttrs.payloadNameState (a : NodeAttrs) : Option (String × StateResult) :=
  match a.task with
  | some t => some (t.name, t.state)
  | none => a.node.map (fun d => (d.name, d.state))

/-- `_has_node_changed(task_name, node_dict)` against the store `db`:
a missing payload is a `KeyError`; a `NodeNotFoundError` from the state
query means changed; any other state fault propagates; a missing persisted
record means changed; otherwise the fingerprints are compared. -/
def _has_node_changed (db : StateDB) (task_name : String) (node_dict : NodeAttrs) :
    Except Exc Bool :=
  match node_dict.payloadNameState with
  | none => .error (.keyError "node")
  | some (nname, st) =>
    match st with
    | .error .notFound => .ok true
    | .error .other => .error .stateFault
    | .ok f =>
      match db task_name nname with
      | none => .ok true
      | some fdb => .ok (!(f == fdb))

/-- Python's `any(...)` over a generator of fallible boolean computations:
short-circuits on the first `true`, propagates the first exception. -/
def anyM {α : Type} (f : α → Except Exc Bool) : List α → Except Exc Bool
  | [] => .ok false
  | x :: xs =>
    match f x with
    | .error e => .error e
    | .ok true => .ok true
    | .ok false => anyM f xs

/-- Modelled from the spec: `node_and_neigbors` lives in `pytask.dag`,
which is not under `src/`; per the spec it yields the task itself plus its
direct predecessors and successors (one hop). -/
def node_and_neigbors (g : DiGraph) (name : String) : List String :=
  name :: (g.preds name ++ g.succs name)

/-- One element of the neighborhood scan:
`_has_node_changed(task_name, dag.nodes[node])`, with the `KeyError` a
missing node lookup would raise. -/
def entryChanged (db : StateDB) (task_name : String) (g : DiGraph) (n : String) :
    Except Exc Bool :=
  match g.attr? n with
  | none => .error (.keyError n)
  | some a => _has_node_changed db task_name a

/-- `_have_task_or_neighbors_changed(task_name, dag)`: `any` of
`_has_node_changed` over the one-hop neighborhood. -/
def _have_task_or_neighbors_changed (db : StateDB) (task_name : String) (g : DiGraph) :
    Except Exc Bool :=
  anyM (entryChanged db task_name g) (node_and_neigbors g task_name)

/-- Modelled from the spec: `task_and_descending_tasks` lives in
`pytask.dag`, which is not under `src/`; per the spec it yields the task
itself together with every task node reachable from it by a directed
path. -/
def task_and_descending_tasks (task_name : String) (g : DiGraph) : List String :=
  g.names.filter (fun n => g.hasTask n && ReachB g task_name n)

/-- The `skip_unchanged` marker the selector attaches. -/
def skipMark : Mark := ⟨"skip_unchanged"⟩

/-- `dag.nodes[task_name]["task"].markers.append(Mark("skip_unchanged", (), {}))`. -/
def attachSkip (g : DiGraph) (task_name : String) : DiGraph :=
  { g with nodes := g.nodes.map (fun p =>
      if p.1 == task_name then
        (p.1, { p.2 with task := p.2.task.map (fun t =>
          { t with markers := t.markers ++ [skipMark] }) })
      else p) }

/-- The running state of the selector's walk: the (mutated-in-place)
graph, the `visited_nodes` list, and the pending exception once one has
been raised (the Python loop stops at the first exception). -/
structure SelState where
  dag : DiGraph
  visited : List String
  err : Option Exc
deriving DecidableEq, Repr

/-- One iteration of the selector's loop over the topologically sorted
task names: skip everything once an exception is pending; skip a task
already in `visited_nodes`; otherwise scan its neighborhood and either
propagate all descending tasks into `visited_nodes` or attach the
`skip_unchanged` marker. -/
def selStep (db : StateDB) (s : SelState) (tn : String) : SelState :=
  match s.err with
  | some _ => s
  | none =>
    if tn ∈ s.visited then s
    else
      match _have_task_or_neighbors_changed db tn s.dag with
      | .error e => { s with err := some e }
      | .ok true =>
        { s with visited := s.visited ++ task_and_descending_tasks tn s.dag }
      | .ok false =>
        match (s.dag.attr? tn).bind NodeAttrs.task with
        | some _ => { s with dag := attachSkip s.dag tn }
        | none => { s with err := some (.keyError "task") }

/-- The selector's loop over a given processing order. -/
def select_loop (db : StateDB) (order : List String) (g : DiGraph) : SelState :=
  order.foldl (selStep db) ⟨g, [], none⟩

/-- Modelled from the spec: `sort_tasks_topologically` lives in
`pytask.dag`, which is not under `src/`; per the spec it yields the task
nodes in a topological order of the graph with ties broken by declaration
order.  Kahn's algorithm: repeatedly emit the first remaining node that no
other remaining node points to, then keep only task nodes. -/
def kahnAux (g : DiGraph) : Nat → List String → List String
  | 0, _ => []
  | fuel + 1, remaining =>
    match remaining.find? (fun n =>
      !(remaining.any (fun m => m != n && (g.edges.contains (m, n))))) with
    | none => []
    | some n => n :: kahnAux g fuel (remaining.erase n)

/-- Modelled from the spec: topological order of the task nodes. -/
def sort_tasks_topologically (g : DiGraph) : List String :=
  (kahnAux g g.nodes.length g.names).filter (fun n => g.hasTask n)

/-- `pytask_resolve_dependencies_select_execution_dag(dag)`: run the loop
over the topologically sorted tasks; the graph is mutated in place, so
even a failing run leaves its partial annotations behind. -/
def pytask_resolve_dependencies_select_execution_dag (db : StateDB) (g : DiGraph) :
    DiGraph × Option Exc :=
  let s := select_loop db (sort_tasks_topologically g) g
  (s.dag, s.err)

/-- `ResolvingDependenciesReport(sys.exc_info())`: the report wraps the
exception that aborted resolution. -/
structure ResolvingDependenciesReport where
  exc : Exc
deriving DecidableEq, Repr

/-- The unified error `pytask_resolve_dependencies` re-raises. -/
inductive PipelineError where
  | resolvingDependenciesError
deriving DecidableEq, Repr

/-- The slice of the session the resolution hook touches. -/
structure Session where
  tasks : List Task
  dag : Option DiGraph
  resolving_dependencies_report : Option ResolvingDependenciesReport
deriving DecidableEq, Repr

/-- `pytask_resolve_dependencies(session)`: build the DAG and store it on
the session, validate it, then select; any exception is wrapped into a
report stored on the session and re-raised as the unified
`ResolvingDependenciesError`; on success the hook returns `True`.  The
returned session reflects all in-place mutation performed before a
failure. -/
def pytask_resolve_dependencies (db : StateDB) (session : Session) :
    Session × Except PipelineError Bool :=
  let dag := create_dag session.tasks
  let session := { session with dag := some dag }
  match pytask_resolve_dependencies_validate_dag dag with
  | .error e =>
    ({ session with resolving_dependencies_report := some ⟨e⟩ },
      .error .resolvingDependenciesError)
  | .ok () =>
    let res := pytask_resolve_dependencies_select_execution_dag db dag
    let session := { session with dag := some res.1 }
    match res.2 with
    | some e =>
      ({ session with resolving_dependencies_report := some ⟨e⟩ },
        .error .resolvingDependenciesError)
    | none => (session, .ok true)

/-- The graph contains a directed cycle: some edge closes a path back to
its own source. -/
def HasCycle (g : DiGraph) : Prop :=
  ∃ e, e ∈ g.edges ∧ Reach g e.2 e.1

/-- `es` is a non-empty closed walk of `g`: consecutive edges are chained
and the last edge returns to the first edge's source. -/
def ClosedWalkIn (g : DiGraph) (es : List (String × String)) : Prop :=
  es ≠ [] ∧ (∀ e ∈ es, e ∈ g.edges) ∧ List.Chain' (fun a b => a.2 = b.1) es ∧
    es.getLast?.map Prod.snd = es.head?.map Prod.fst

theorem mem_succs {g : DiGraph} {u w : String} :
    w ∈ g.succs u ↔ (u, w) ∈ g.edges := by
  simp only [DiGraph.succs, List.mem_map, List.mem_filter, beq_iff_eq]
  constructor
  · rintro ⟨e, ⟨he, h1⟩, h2⟩
    have : e = (u, w) := Prod.ext h1 h2
    simpa [this] using he
  · intro h
    exact ⟨(u, w), ⟨h, rfl⟩, rfl⟩

theorem mem_preds {g : DiGraph} {u w : String} :
    u ∈ g.preds w ↔ (u, w) ∈ g.edges := by
  simp only [DiGraph.preds, List.mem_map, List.mem_filter, beq_iff_eq]
  constructor
  · rintro ⟨e, ⟨he, h2⟩, h1⟩
    have : e = (u, w) := Prod.ext h1 h2
    simpa [this] using he
  · intro h
    exact ⟨(u, w), ⟨h, rfl⟩, rfl⟩

theorem findSome?_isSome_of_mem {α β : Type} {f : α → Option β} {l : List α} {a : α}
    (ha : a ∈ l) (h : (f a).isSome) : (l.findSome? f).isSome := by
  induction l with
  | nil => cases ha
  | cons x xs ih =>
    rw [List.findSome?_cons]
    cases hfx : f x with
    | some b => simp
    | none =>
      rcases List.mem_cons.mp ha with rfl | hmem
      · rw [hfx] at h; cases h
      · exact ih hmem

theorem exists_of_findSome?_eq_some {α β : Type} {f : α → Option β} {l : List α} {b : β}
    (h : l.findSome? f = some b) : ∃ a, a ∈ l ∧ f a = some b := by
  induction l with
  | nil => cases h
  | cons x xs ih =>
    rw [List.findSome?_cons] at h
    cases hfx : f x with
    | some c =>
      rw [hfx] at h
      exact ⟨x, List.mem_cons_self _ _, by rw [hfx]; exact h⟩
    | none =>
      rw [hfx] at h
      obtain ⟨a, ha, hfa⟩ := ih h
      exact ⟨a, List.mem_cons_of_mem _ ha, hfa⟩

theorem findPathAux_refl (g : DiGraph) (fuel : Nat) (u : String) :
    findPathAux g fuel u u = some [] := by
  cases fuel <;> simp [findPathAux]

theorem findPathAux_sound (g : DiGraph) :
    ∀ (fuel : Nat) (u v : String) (p : List (String × String)),
      findPathAux g fuel u v = some p → EdgeWalk g u p v := by
  intro fuel
  induction fuel with
  | zero =>
    intro u v p h
    simp only [findPathAux] at h
    split at h
    · cases h
      simpa [EdgeWalk]
    · cases h
  | succ fuel ih =>
    intro u v p h
    simp only [findPathAux] at h
    split at h
    · cases h
      simpa [EdgeWalk]
    · obtain ⟨w, hw, hfw⟩ := exists_of_findSome?_eq_some h
      cases hq : findPathAux g fuel w v with
      | none => rw [hq] at hfw; cases hfw
      | some q =>
        rw [hq] at hfw
        simp only [Option.map_some'] at hfw
        cases hfw
        exact ⟨rfl, mem_succs.mp hw, ih w v q hq⟩

theorem edgeWalk_to_walkP {g : DiGraph} :
    ∀ {p : List (String × String)} {u v : String},
      EdgeWalk g u p v → WalkP g u (p.map Prod.snd) v := by
  intro p
  induction p with
  | nil => intro u v h; exact h
  | cons e p ih =>
    intro u v h
    obtain ⟨h1, h2, h3⟩ := h
    refine ⟨?_, ih h3⟩
    have : e = (u, e.2) := Prod.ext h1 rfl
    rwa [this] at h2

theorem walkP_suffix {g : DiGraph} {v : String} :
    ∀ (pre : List String) {x : String} {suf : List String} {u : String} {l : List String},
      WalkP g u l v → u :: l = pre ++ x :: suf → WalkP g x suf v := by
  intro pre
  induction pre with
  | nil =>
    intro x suf u l hw heq
    simp only [List.nil_append, List.cons.injEq] at heq
    obtain ⟨rfl, rfl⟩ := heq
    exact hw
  | cons q pre ih =>
    intro x suf u l hw heq
    simp only [List.cons_append, List.cons.injEq] at heq
    obtain ⟨rfl, rfl⟩ := heq
    cases hl : pre ++ x :: suf with
    | nil => exact absurd hl (List.append_ne_nil_of_right_ne_nil _ (List.cons_ne_nil _ _))
    | cons w l' =>
      rw [hl] at hw
      exact ih hw.2 (by rw [hl])

theorem walkP_nodup {g : DiGraph} {v : String} :
    ∀ {l : List String} {u : String},
      WalkP g u l v → ∃ m, WalkP g u m v ∧ (u :: m).Nodup := by
  intro l
  induction l with
  | nil =>
    intro u hw
    exact ⟨[], hw, List.nodup_singleton u⟩
  | cons w l ih =>
    intro u hw
    obtain ⟨h1, h2⟩ := hw
    obtain ⟨m, hm, hnd⟩ := ih h2
    by_cases hu : u ∈ w :: m
    · obtain ⟨pre, suf, hsplit⟩ := List.append_of_mem hu
      refine ⟨suf, walkP_suffix pre hm hsplit, ?_⟩
      have hsub : List.Sublist (u :: suf) (w :: m) := by
        rw [hsplit]
        exact (List.sublist_append_right pre (u :: suf))
      exact List.Nodup.sublist hsub hnd
    · exact ⟨w :: m, ⟨h1, hm⟩, List.nodup_cons.mpr ⟨hu, hnd⟩⟩

theorem walkP_mem_targets {g : DiGraph} {v : String} :
    ∀ {l : List String} {u : String},
      WalkP g u l v → ∀ x ∈ l, x ∈ g.edges.map Prod.snd := by
  intro l
  induction l with
  | nil => intro u _ x hx; cases hx
  | cons w l ih =>
    intro u hw x hx
    obtain ⟨h1, h2⟩ := hw
    rcases List.mem_cons.mp hx with rfl | hx
    · exact List.mem_map.mpr ⟨(u, x), h1, rfl⟩
    · exact ih h2 x hx

theorem nodup_walk_length {g : DiGraph} {u v : String} {l : List String}
    (hw : WalkP g u l v) (hnd : (u :: l).Nodup) : l.length ≤ g.edges.length := by
  have hndl : l.Nodup := (List.nodup_cons.mp hnd).2
  have hsub : l.toFinset ⊆ (g.edges.map Prod.snd).toFinset := by
    intro x hx
    exact List.mem_toFinset.mpr (walkP_mem_targets hw x (List.mem_toFinset.mp hx))
  calc l.length = l.toFinset.card := (List.toFinset_card_of_nodup hndl).symm
    _ ≤ (g.edges.map Prod.snd).toFinset.card := Finset.card_le_card hsub
    _ ≤ (g.edges.map Prod.snd).length := (g.edges.map Prod.snd).toFinset_card_le
    _ = g.edges.length := List.length_map _ _

theorem findPathAux_complete (g : DiGraph) :
    ∀ (l : List String) (fuel : Nat) (u v : String),
      WalkP g u l v → l.length ≤ fuel → (findPathAux g fuel u v).isSome := by
  intro l
  induction l with
  | nil =>
    intro fuel u v hw _
    cases hw
    rw [findPathAux_refl]
    simp
  | cons w l ih =>
    intro fuel u v hw hlen
    obtain ⟨h1, h2⟩ := hw
    cases fuel with
    | zero => exact absurd hlen (by simp)
    | succ fuel =>
      simp only [findPathAux]
      split
      · simp
      · refine findSome?_isSome_of_mem (mem_succs.mpr h1) ?_
        have : (findPathAux g fuel w v).isSome :=
          ih fuel w v h2 (Nat.succ_le_succ_iff.mp hlen)
        rw [Option.isSome_map']
        exact this

theorem reach_iff_reachB {g : DiGraph} {u v : String} :
    Reach g u v ↔ ReachB g u v = true := by
  constructor
  · rintro ⟨l, hw⟩
    obtain ⟨m, hm, hnd⟩ := walkP_nodup hw
    exact findPathAux_complete g m g.edges.length u v hm (nodup_walk_length hm hnd)
  · intro h
    unfold ReachB at h
    obtain ⟨p, hp⟩ := Option.isSome_iff_exists.mp h
    exact ⟨p.map Prod.snd, edgeWalk_to_walkP (findPathAux_sound g _ u v p hp)⟩

theorem edgeWalk_edges {g : DiGraph} :
    ∀ {p : List (String × String)} {u v : String},
      EdgeWalk g u p v → ∀ e ∈ p, e ∈ g.edges := by
  intro p
  induction p with
  | nil => intro u v _ e he; cases he
  | cons f p ih =>
    intro u v h e he
    obtain ⟨_, h2, h3⟩ := h
    rcases List.mem_cons.mp he with rfl | he
    · exact h2
    · exact ih h3 e he

theorem edgeWalk_chain {g : DiGraph} :
    ∀ {p : List (String × String)} {u v : String},
      EdgeWalk g u p v → List.Chain' (fun a b => a.2 = b.1) p := by
  intro p
  induction p with
  | nil => intro u v _; exact List.chain'_nil
  | cons f p ih =>
    intro u v h
    obtain ⟨h1, h2, h3⟩ := h
    cases p with
    | nil => simp
    | cons f' p' =>
      refine List.chain'_cons.mpr ⟨h3.1.symm, ih h3⟩

theorem edgeWalk_last {g : DiGraph} :
    ∀ {p : List (String × String)} {u v : String} {t : String × String},
      EdgeWalk g u p v → p.getLast? = some t → t.2 = v := by
  intro p
  induction p with
  | nil => intro u v t _ hl; cases hl
  | cons f p ih =>
    intro u v t h hl
    obtain ⟨h1, h2, h3⟩ := h
    cases p with
    | nil =>
      simp only [List.getLast?_singleton, Option.some.injEq] at hl
      subst hl
      exact h3
    | cons f' p' =>
      rw [List.getLast?_cons_cons] at hl
      exact ih h3 hl

theorem find_cycle_spec {g : DiGraph} {es : List (String × String)} :
    find_cycle g = some es →
      ∃ e p, e ∈ g.edges ∧ es = e :: p ∧ EdgeWalk g e.2 p e.1 := by
  intro h
  obtain ⟨e, he, hfe⟩ := exists_of_findSome?_eq_some h
  cases hq : findPathAux g g.edges.length e.2 e.1 with
  | none => rw [hq] at hfe; cases hfe
  | some p =>
    rw [hq] at hfe
    simp only [Option.map_some', Option.some.injEq] at hfe
    exact ⟨e, p, he, hfe.symm, findPathAux_sound g _ _ _ p hq⟩

theorem find_cycle_sound {g : DiGraph} {es : List (String × String)}
    (h : find_cycle g = some es) : HasCycle g := by
  obtain ⟨e, p, he, _, hw⟩ := find_cycle_spec h
  exact ⟨e, he, p.map Prod.snd, edgeWalk_to_walkP hw⟩

theorem find_cycle_closed {g : DiGraph} {es : List (String × String)}
    (h : find_cycle g = some es) : ClosedWalkIn g es := by
  obtain ⟨e, p, he, rfl, hw⟩ := find_cycle_spec h
  refine ⟨List.cons_ne_nil _ _, ?_, ?_, ?_⟩
  · intro f hf
    rcases List.mem_cons.mp hf with rfl | hf
    · exact he
    · exact edgeWalk_edges hw f hf
  · cases p with
    | nil => simp
    | cons f' p' =>
      exact List.chain'_cons.mpr ⟨hw.1.symm, edgeWalk_chain hw⟩
  · cases hp : p with
    | nil =>
      subst hp
      simp only [List.getLast?_singleton, List.head?_cons, Option.map_some']
      have : e.2 = e.1 := hw
      rw [this]
    | cons f' p' =>
      subst hp
      rw [List.getLast?_cons_cons]
      cases ht : (f' :: p').getLast? with
      | none => exact absurd (List.getLast?_eq_none_iff.mp ht) (List.cons_ne_nil _ _)
      | some t =>
        simp only [List.head?_cons, Option.map_some']
        rw [edgeWalk_last hw ht]

theorem find_cycle_complete {g : DiGraph} (h : HasCycle g) :
    (find_cycle g).isSome := by
  obtain ⟨e, he, hr⟩ := h
  have hb : ReachB g e.2 e.1 = true := reach_iff_reachB.mp hr
  unfold ReachB at hb
  refine findSome?_isSome_of_mem he ?_
  rw [Option.isSome_map']
  exact hb

/-- `validate` unfolded to its two stages. -/
theorem validate_eq (g : DiGraph) :
    pytask_resolve_dependencies_validate_dag g =
      match find_cycle g with
      | some es => .error (.cycleError es)
      | none => _check_if_root_nodes_are_available g := by
  unfold pytask_resolve_dependencies_validate_dag _check_if_dag_has_cycles
  cases find_cycle g <;> rfl

/-- The node entry is a zero-indegree data node whose artifact does not
exist (a missing root). -/
def rootMissingB (g : DiGraph) (p : String × NodeAttrs) : Bool :=
  match p.2.node with
  | some d => decide (g.preds p.1 = []) && decide (d.state = .error .notFound)
  | none => false

/-- The node entry is a zero-indegree data node whose state query fails
with a fault other than "does not exist". -/
def rootOtherB (g : DiGraph) (p : String × NodeAttrs) : Bool :=
  match p.2.node with
  | some d => decide (g.preds p.1 = []) && decide (d.state = .error .other)
  | none => false

theorem checkRootEntry_ne_cycle {g : DiGraph} {name : String} {a : NodeAttrs}
    {es : List (String × String)} : checkRootEntry g name a ≠ some (.cycleError es) := by
  unfold checkRootEntry
  split
  · intro h; cases h
  · split
    · split <;> intro h <;> cases h
    · intro h; cases h

theorem checkRootEntry_missing {g : DiGraph} {name : String} {a : NodeAttrs}
    {n : String} {s : List String}
    (h : checkRootEntry g name a = some (.missingRoot n s)) :
    ∃ d, a.node = some d ∧ g.preds name = [] ∧ d.state = .error .notFound ∧
      n = name ∧ s = g.succs name := by
  unfold checkRootEntry at h
  split at h
  · cases h
  · rename_i d hnode
    split at h
    · rename_i hpred
      split at h
      · rename_i hstate
        simp only [Option.some.injEq, Exc.missingRoot.injEq] at h
        exact ⟨d, hnode, hpred, hstate, h.1.symm, h.2.symm⟩
      · cases h
      · cases h
    · cases h

theorem checkRootEntry_of_missing {g : DiGraph} {name : String} {a : NodeAttrs}
    {d : DataNode} (hnode : a.node = some d) (hpred : g.preds name = [])
    (hstate : d.state = .error .notFound) :
    checkRootEntry g name a = some (.missingRoot name (g.succs name)) := by
  simp [checkRootEntry, hnode, hpred, hstate]

theorem checkRootEntry_none {g : DiGraph} {name : String} {a : NodeAttrs}
    (hm : rootMissingB g (name, a) = false) (ho : rootOtherB g (name, a) = false) :
    checkRootEntry g name a = none := by
  cases hnode : a.node with
  | none => simp [checkRootEntry, hnode]
  | some d =>
    simp only [rootMissingB, rootOtherB, hnode, Bool.and_eq_true, decide_eq_true_eq,
      Bool.and_eq_false_iff, decide_eq_false_iff_not] at hm ho
    by_cases hpred : g.preds name = []
    · cases hstate : d.state with
      | ok f => simp [checkRootEntry, hnode, hpred, hstate]
      | error se =>
        cases se with
        | notFound =>
          rcases hm with hm | hm
          · exact absurd hpred hm
          · exact absurd hstate hm
        | other =>
          rcases ho with ho | ho
          · exact absurd hpred ho
          · exact absurd hstate ho
    · simp [checkRootEntry, hnode, hpred]

theorem checkRoots_not_cycleError {g : DiGraph} {es : List (String × String)} :
    ∀ l : List (String × NodeAttrs), checkRoots g l ≠ .error (.cycleError es) := by
  intro l
  induction l with
  | nil => intro h; cases h
  | cons p rest ih =>
    obtain ⟨name, a⟩ := p
    intro h
    simp only [checkRoots] at h
    cases hentry : checkRootEntry g name a with
    | none => rw [hentry] at h; exact ih h
    | some e =>
      rw [hentry] at h
      simp only [Except.error.injEq] at h
      rw [h] at hentry
      exact checkRootEntry_ne_cycle hentry

/-- C3: Cycle soundness: for all graphs `g`, `validate(g)` fails with a
cycle error iff `g` contains a directed cycle; the reported cycle is a
non-empty chained edge sequence of `g` closing back on itself; and if `g`
is acyclic the cycle check passes without effect. -/
theorem cycle_soundness (g : DiGraph) :
    ((∃ es, pytask_resolve_dependencies_validate_dag g = .error (.cycleError es)) ↔
      HasCycle g)
    ∧ (∀ es, pytask_resolve_dependencies_validate_dag g = .error (.cycleError es) →
        ClosedWalkIn g es)
    ∧ (¬ HasCycle g → _check_if_dag_has_cycles g = .ok ()) := by
  rw [validate_eq]
  cases hfc : find_cycle g with
  | some es' =>
    refine ⟨⟨fun _ => find_cycle_sound hfc, fun _ => ⟨es', rfl⟩⟩, ?_, ?_⟩
    · intro es h
      have hes : es' = es := by
        simpa using h
      rw [← hes]
      exact find_cycle_closed hfc
    · intro hnc
      exact absurd (find_cycle_sound hfc) hnc
  | none =>
    refine ⟨⟨?_, ?_⟩, ?_, ?_⟩
    · rintro ⟨es, h⟩
      exact absurd h (checkRoots_not_cycleError g.nodes)
    · intro hc
      have := find_cycle_complete hc
      rw [hfc] at this
      cases this
    · intro es h
      exact absurd h (checkRoots_not_cycleError g.nodes)
    · intro _
      unfold _check_if_dag_has_cycles
      rw [hfc]

/-- A three-node-style cyclic graph used to exercise the cycle check. -/
def cycWitnessGraph : DiGraph :=
  ⟨[("a", NodeAttrs.empty), ("b", NodeAttrs.empty)], [("a", "b"), ("b", "a")]⟩

theorem cycle_soundness_witness :
    HasCycle cycWitnessGraph
    ∧ (∃ es, pytask_resolve_dependencies_validate_dag cycWitnessGraph =
        .error (.cycleError es))
    ∧ ClosedWalkIn cycWitnessGraph [("a", "b"), ("b", "a")] := by
  have hcyc : HasCycle cycWitnessGraph := ⟨("a", "b"), by decide, ["a"], by decide⟩
  exact ⟨hcyc, (cycle_soundness cycWitnessGraph).1.mpr hcyc,
    (cycle_soundness cycWitnessGraph).2.1 _ (by decide)⟩

theorem checkRoots_missingRoot {g : DiGraph} {n : String} {s : List String} :
    ∀ l, checkRoots g l = .error (.missingRoot n s) →
      ∃ a d, (n, a) ∈ l ∧ a.node = some d ∧ g.preds n = [] ∧
        d.state = .error .notFound ∧ s = g.succs n := by
  intro l
  induction l with
  | nil => intro h; cases h
  | cons p rest ih =>
    obtain ⟨name, a⟩ := p
    intro h
    simp only [checkRoots] at h
    cases hentry : checkRootEntry g name a with
    | none =>
      rw [hentry] at h
      obtain ⟨a', d', hm, h2, h3, h4, h5⟩ := ih h
      exact ⟨a', d', List.mem_cons_of_mem _ hm, h2, h3, h4, h5⟩
    | some e =>
      rw [hentry] at h
      simp only [Except.error.injEq] at h
      rw [h] at hentry
      obtain ⟨d, hnode, hpred, hstate, hn, hs⟩ := checkRootEntry_missing hentry
      subst hn
      exact ⟨a, d, List.mem_cons_self _ _, hnode, hpred, hstate, hs⟩

theorem checkRoots_finds_missing {g : DiGraph} :
    ∀ l, (∀ p ∈ l, rootOtherB g p = false) → (l.any (rootMissingB g) = true) →
      ∃ n s, checkRoots g l = .error (.missingRoot n s) := by
  intro l
  induction l with
  | nil => intro _ h; cases h
  | cons p rest ih =>
    obtain ⟨name, a⟩ := p
    intro hno hex
    cases hm : rootMissingB g (name, a) with
    | true =>
      cases hnode : a.node with
      | none => simp [rootMissingB, hnode] at hm
      | some d =>
        simp only [rootMissingB, hnode, Bool.and_eq_true, decide_eq_true_eq] at hm
        refine ⟨name, g.succs name, ?_⟩
        simp only [checkRoots, checkRootEntry_of_missing hnode hm.1 hm.2]
    | false =>
      have hentry : checkRootEntry g name a =
          none := checkRootEntry_none hm (hno (name, a) (List.mem_cons_self _ _))
      obtain ⟨n, s, hns⟩ := ih (fun q hq => hno q (List.mem_cons_of_mem _ hq))
        (by
          simp only [List.any_cons, Bool.or_eq_true] at hex
          rcases hex with hx | hx
          · rw [hm] at hx; cases hx
          · exact hx)
      exact ⟨n, s, by simp only [checkRoots, hentry]; exact hns⟩

/-- C4 (amended): if `validate` fails with the missing-root error, the
named node is a zero-indegree data node whose artifact does not exist and
the error carries its direct successors (so an existing root never
triggers the error); conversely, when the cycle check passes and no
zero-indegree data node's state query fails with a non-not-found fault,
the existence of a missing root makes `validate` fail with the
missing-root error. -/
theorem root_completeness (g : DiGraph) :
    (∀ n s, pytask_resolve_dependencies_validate_dag g = .error (.missingRoot n s) →
      ∃ a d, (n, a) ∈ g.nodes ∧ a.node = some d ∧ g.preds n = [] ∧
        d.state = .error .notFound ∧ s = g.succs n)
    ∧ (find_cycle g = none → (∀ p ∈ g.nodes, rootOtherB g p = false) →
        g.nodes.any (rootMissingB g) = true →
        ∃ n s, pytask_resolve_dependencies_validate_dag g = .error (.missingRoot n s)) := by
  constructor
  · intro n s h
    rw [validate_eq] at h
    cases hfc : find_cycle g with
    | some es => rw [hfc] at h; cases h
    | none =>
      rw [hfc] at h
      exact checkRoots_missingRoot g.nodes h
  · intro hfc hno hex
    rw [validate_eq, hfc]
    exact checkRoots_finds_missing g.nodes hno hex

/-- A graph with one task depending on a data node that does not exist. -/
def missingRootGraph : DiGraph :=
  create_dag [⟨"T", [⟨"r", .error .notFound⟩], [], [], .ok 0⟩]

theorem root_completeness_witness :
    (∃ a d, ("r", a) ∈ missingRootGraph.nodes ∧ a.node = some d ∧
      missingRootGraph.preds "r" = [] ∧ d.state = .error .notFound ∧
      ["T"] = missingRootGraph.succs "r")
    ∧ (∃ n s, pytask_resolve_dependencies_validate_dag missingRootGraph =
        .error (.missingRoot n s)) := by
  refine ⟨(root_completeness missingRootGraph).1 "r" ["T"] (by decide), ?_⟩
  exact (root_completeness missingRootGraph).2 (by decide) (by decide) (by decide)

/-- A cyclic graph that also contains a missing root: `validate` reports
the cycle, not the missing root, refuting the claim's unrestricted
equivalence. -/
def cycPlusMissingRoot : DiGraph :=
  ⟨[("a", NodeAttrs.empty), ("b", NodeAttrs.empty),
    ("r", ⟨none, some ⟨"r", .error .notFound⟩⟩)],
    [("a", "b"), ("b", "a")]⟩

theorem root_completeness_counterexample :
    cycPlusMissingRoot.nodes.any (rootMissingB cycPlusMissingRoot) = true
    ∧ ∀ n s, pytask_resolve_dependencies_validate_dag cycPlusMissingRoot ≠
        .error (.missingRoot n s) := by
  refine ⟨by decide, ?_⟩
  intro n s h
  rw [show pytask_resolve_dependencies_validate_dag cycPlusMissingRoot =
    .error (.cycleError [("a", "b"), ("b", "a")]) from by decide] at h
  simp at h

theorem hasNode_iff {g : DiGraph} {n : String} :
    g.hasNode n = true ↔ n ∈ g.names := by
  simp [DiGraph.hasNode, DiGraph.names, List.any_eq_true, List.mem_map]

theorem names_map_fst_update {l : List (String × NodeAttrs)}
    {f : String × NodeAttrs → String × NodeAttrs} (hf : ∀ p, (f p).1 = p.1) :
    (l.map f).map Prod.fst = l.map Prod.fst := by
  rw [List.map_map]
  exact List.map_congr_left (fun p _ => hf p)

theorem names_add_node_task (g : DiGraph) (name : String) (t : Task) :
    (g.add_node_task name t).names =
      if g.hasNode name then g.names else g.names ++ [name] := by
  unfold DiGraph.add_node_task
  split <;> rename_i h
  · exact names_map_fst_update (fun p => by split <;> rfl)
  · simp [DiGraph.names]

theorem names_add_node_data (g : DiGraph) (name : String) (d : DataNode) :
    (g.add_node_data name d).names =
      if g.hasNode name then g.names else g.names ++ [name] := by
  unfold DiGraph.add_node_data
  split <;> rename_i h
  · exact names_map_fst_update (fun p => by split <;> rfl)
  · simp [DiGraph.names]

theorem names_ensure_node (g : DiGraph) (name : String) :
    (g.ensure_node name).names =
      if g.hasNode name then g.names else g.names ++ [name] := by
  unfold DiGraph.ensure_node
  split <;> rename_i h
  · rfl
  · simp [DiGraph.names]

theorem mem_of_names_ite {g : DiGraph} {name n : String} {l : List String}
    (hl : l = if g.hasNode name then g.names else g.names ++ [name]) :
    n ∈ l ↔ n ∈ g.names ∨ n = name := by
  subst hl
  split <;> rename_i h
  · constructor
    · exact Or.inl
    · rintro (hh | rfl)
      · exact hh
      · exact hasNode_iff.mp h
  · simp

theorem mem_names_add_node_task {g : DiGraph} {name : String} {t : Task} {n : String} :
    n ∈ (g.add_node_task name t).names ↔ n ∈ g.names ∨ n = name :=
  mem_of_names_ite (names_add_node_task g name t)

theorem mem_names_add_node_data {g : DiGraph} {name : String} {d : DataNode} {n : String} :
    n ∈ (g.add_node_data name d).names ↔ n ∈ g.names ∨ n = name :=
  mem_of_names_ite (names_add_node_data g name d)

theorem mem_names_ensure_node {g : DiGraph} {name : String} {n : String} :
    n ∈ (g.ensure_node name).names ↔ n ∈ g.names ∨ n = name :=
  mem_of_names_ite (names_ensure_node g name)

theorem names_add_edge (g : DiGraph) (u v : String) :
    (g.add_edge u v).names = ((g.ensure_node u).ensure_node v).names := by
  by_cases h : (u, v) ∈ ((g.ensure_node u).ensure_node v).edges <;>
    simp [DiGraph.add_edge, h, DiGraph.names]

theorem mem_names_add_edge {g : DiGraph} {u v : String} {n : String} :
    n ∈ (g.add_edge u v).names ↔ n ∈ g.names ∨ n = u ∨ n = v := by
  rw [names_add_edge, mem_names_ensure_node, mem_names_ensure_node]
  tauto

theorem edges_add_node_task (g : DiGraph) (name : String) (t : Task) :
    (g.add_node_task name t).edges = g.edges := by
  unfold DiGraph.add_node_task
  split <;> rfl

theorem edges_add_node_data (g : DiGraph) (name : String) (d : DataNode) :
    (g.add_node_data name d).edges = g.edges := by
  unfold DiGraph.add_node_data
  split <;> rfl

theorem edges_ensure_node (g : DiGraph) (name : String) :
    (g.ensure_node name).edges = g.edges := by
  unfold DiGraph.ensure_node
  split <;> rfl

theorem edges_add_edge (g : DiGraph) (u v : String) :
    (g.add_edge u v).edges =
      if (u, v) ∈ g.edges then g.edges else g.edges ++ [(u, v)] := by
  have hE : ((g.ensure_node u).ensure_node v).edges = g.edges := by
    rw [edges_ensure_node, edges_ensure_node]
  by_cases h : (u, v) ∈ g.edges
  · rw [if_pos h]
    simp only [DiGraph.add_edge]
    rw [if_pos (by rw [hE]; exact h)]
    exact hE
  · rw [if_neg h]
    simp only [DiGraph.add_edge]
    rw [if_neg (by rw [hE]; exact h)]
    show ((g.ensure_node u).ensure_node v).edges ++ [(u, v)] = g.edges ++ [(u, v)]
    rw [hE]

theorem mem_edges_add_edge {g : DiGraph} {u v : String} {e : String × String} :
    e ∈ (g.add_edge u v).edges ↔ e ∈ g.edges ∨ e = (u, v) := by
  rw [edges_add_edge]
  split <;> rename_i h
  · constructor
    · exact Or.inl
    · rintro (hh | rfl)
      · exact hh
      · exact h
  · simp

theorem mem_edges_depsFold (tn : String) :
    ∀ (deps : List DataNode) (g : DiGraph) (e : String × String),
      e ∈ (deps.foldl
          (fun g dep => (g.add_node_data dep.name dep).add_edge dep.name tn) g).edges ↔
        e ∈ g.edges ∨ ∃ d ∈ deps, e = (d.name, tn) := by
  intro deps
  induction deps with
  | nil => simp
  | cons d deps ih =>
    intro g e
    simp only [List.foldl_cons]
    rw [ih, mem_edges_add_edge, edges_add_node_data]
    constructor
    · rintro ((h | h) | ⟨d', hd', rfl⟩)
      · exact Or.inl h
      · exact Or.inr ⟨d, List.mem_cons_self _ _, h⟩
      · exact Or.inr ⟨d', List.mem_cons_of_mem _ hd', rfl⟩
    · rintro (h | ⟨d', hd', rfl⟩)
      · exact Or.inl (Or.inl h)
      · rcases List.mem_cons.mp hd' with rfl | hd'
        · exact Or.inl (Or.inr rfl)
        · exact Or.inr ⟨d', hd', rfl⟩

theorem mem_edges_prodsFold (tn : String) :
    ∀ (prods : List DataNode) (g : DiGraph) (e : String × String),
      e ∈ (prods.foldl
          (fun g p => (g.add_node_data p.name p).add_edge tn p.name) g).edges ↔
        e ∈ g.edges ∨ ∃ p ∈ prods, e = (tn, p.name) := by
  intro prods
  induction prods with
  | nil => simp
  | cons q prods ih =>
    intro g e
    simp only [List.foldl_cons]
    rw [ih, mem_edges_add_edge, edges_add_node_data]
    constructor
    · rintro ((h | h) | ⟨q', hq', rfl⟩)
      · exact Or.inl h
      · exact Or.inr ⟨q, List.mem_cons_self _ _, h⟩
      · exact Or.inr ⟨q', List.mem_cons_of_mem _ hq', rfl⟩
    · rintro (h | ⟨q', hq', rfl⟩)
      · exact Or.inl (Or.inl h)
      · rcases List.mem_cons.mp hq' with rfl | hq'
        · exact Or.inl (Or.inr rfl)
        · exact Or.inr ⟨q', hq', rfl⟩

theorem mem_names_depsFold (tn : String) :
    ∀ (deps : List DataNode) (g : DiGraph) (n : String), tn ∈ g.names →
      (n ∈ (deps.foldl
          (fun g dep => (g.add_node_data dep.name dep).add_edge dep.name tn) g).names ↔
        n ∈ g.names ∨ ∃ d ∈ deps, n = d.name) := by
  intro deps
  induction deps with
  | nil => simp
  | cons d deps ih =>
    intro g n htn
    simp only [List.foldl_cons]
    have htn' : tn ∈ ((g.add_node_data d.name d).add_edge d.name tn).names := by
      rw [mem_names_add_edge, mem_names_add_node_data]
      tauto
    rw [ih _ _ htn', mem_names_add_edge, mem_names_add_node_data]
    constructor
    · rintro (((h | h) | (h | h)) | ⟨d', hd', rfl⟩)
      · exact Or.inl h
      · exact Or.inr ⟨d, List.mem_cons_self _ _, h⟩
      · exact Or.inr ⟨d, List.mem_cons_self _ _, h⟩
      · exact Or.inl (h ▸ htn)
      · exact Or.inr ⟨d', List.mem_cons_of_mem _ hd', rfl⟩
    · rintro (h | ⟨d', hd', rfl⟩)
      · exact Or.inl (Or.inl (Or.inl h))
      · rcases List.mem_cons.mp hd' with rfl | hd'
        · exact Or.inl (Or.inl (Or.inr rfl))
        · exact Or.inr ⟨d', hd', rfl⟩

theorem mem_names_prodsFold (tn : String) :
    ∀ (prods : List DataNode) (g : DiGraph) (n : String), tn ∈ g.names →
      (n ∈ (prods.foldl
          (fun g p => (g.add_node_data p.name p).add_edge tn p.name) g).names ↔
        n ∈ g.names ∨ ∃ p ∈ prods, n = p.name) := by
  intro prods
  induction prods with
  | nil => simp
  | cons q prods ih =>
    intro g n htn
    simp only [List.foldl_cons]
    have htn' : tn ∈ ((g.add_node_data q.name q).add_edge tn q.name).names := by
      rw [mem_names_add_edge, mem_names_add_node_data]
      tauto
    rw [ih _ _ htn', mem_names_add_edge, mem_names_add_node_data]
    constructor
    · rintro (((h | h) | (h | h)) | ⟨q', hq', rfl⟩)
      · exact Or.inl h
      · exact Or.inr ⟨q, List.mem_cons_self _ _, h⟩
      · exact Or.inl (h ▸ htn)
      · exact Or.inr ⟨q, List.mem_cons_self _ _, h⟩
      · exact Or.inr ⟨q', List.mem_cons_of_mem _ hq', rfl⟩
    · rintro (h | ⟨q', hq', rfl⟩)
      · exact Or.inl (Or.inl (Or.inl h))
      · rcases List.mem_cons.mp hq' with rfl | hq'
        · exact Or.inl (Or.inl (Or.inr rfl))
        · exact Or.inr ⟨q', hq', rfl⟩

theorem mem_edges_addTask {g : DiGraph} {t : Task} {e : String × String} :
    e ∈ (addTask g t).edges ↔ e ∈ g.edges ∨
      (∃ d ∈ t.depends_on, e = (d.name, t.name)) ∨
      (∃ p ∈ t.produces, e = (t.name, p.name)) := by
  simp only [addTask]
  rw [mem_edges_prodsFold, mem_edges_depsFold, edges_add_node_task]
  rw [or_assoc]

theorem mem_names_addTask {g : DiGraph} {t : Task} {n : String} :
    n ∈ (addTask g t).names ↔ n ∈ g.names ∨ n = t.name ∨
      (∃ d ∈ t.depends_on, n = d.name) ∨ (∃ p ∈ t.produces, n = p.name) := by
  simp only [addTask]
  have h0 : t.name ∈ (g.add_node_task t.name t).names := by
    rw [mem_names_add_node_task]; exact Or.inr rfl
  have h1 : t.name ∈ (t.depends_on.foldl
      (fun g dep => (g.add_node_data dep.name dep).add_edge dep.name t.name)
      (g.add_node_task t.name t)).names := by
    rw [mem_names_depsFold _ _ _ _ h0]; exact Or.inl h0
  rw [mem_names_prodsFold _ _ _ _ h1, mem_names_depsFold _ _ _ _ h0,
    mem_names_add_node_task]
  rw [or_assoc, or_assoc]

theorem mem_edges_tasksFold :
    ∀ (tasks : List Task) (g : DiGraph) (e : String × String),
      e ∈ (tasks.foldl addTask g).edges ↔ e ∈ g.edges ∨
        ∃ t ∈ tasks, (∃ d ∈ t.depends_on, e = (d.name, t.name)) ∨
          (∃ p ∈ t.produces, e = (t.name, p.name)) := by
  intro tasks
  induction tasks with
  | nil => simp
  | cons t tasks ih =>
    intro g e
    simp only [List.foldl_cons]
    rw [ih, mem_edges_addTask]
    constructor
    · rintro ((h | h) | ⟨t', ht', h⟩)
      · exact Or.inl h
      · exact Or.inr ⟨t, List.mem_cons_self _ _, h⟩
      · exact Or.inr ⟨t', List.mem_cons_of_mem _ ht', h⟩
    · rintro (h | ⟨t', ht', h⟩)
      · exact Or.inl (Or.inl h)
      · rcases List.mem_cons.mp ht' with rfl | ht'
        · exact Or.inl (Or.inr h)
        · exact Or.inr ⟨t', ht', h⟩

theorem mem_names_tasksFold :
    ∀ (tasks : List Task) (g : DiGraph) (n : String),
      n ∈ (tasks.foldl addTask g).names ↔ n ∈ g.names ∨
        ∃ t ∈ tasks, n = t.name ∨ (∃ d ∈ t.depends_on, n = d.name) ∨
          (∃ p ∈ t.produces, n = p.name) := by
  intro tasks
  induction tasks with
  | nil => simp
  | cons t tasks ih =>
    intro g n
    simp only [List.foldl_cons]
    rw [ih, mem_names_addTask]
    constructor
    · rintro ((h | h) | ⟨t', ht', h⟩)
      · exact Or.inl h
      · exact Or.inr ⟨t, List.mem_cons_self _ _, h⟩
      · exact Or.inr ⟨t', List.mem_cons_of_mem _ ht', h⟩
    · rintro (h | ⟨t', ht', h⟩)
      · exact Or.inl (Or.inl h)
      · rcases List.mem_cons.mp ht' with rfl | ht'
        · exact Or.inl (Or.inr h)
        · exact Or.inr ⟨t', ht', h⟩

/-- The edge set of a built graph, characterized declaratively. -/
theorem mem_edges_create_dag {tasks : List Task} {e : String × String} :
    e ∈ (create_dag tasks).edges ↔
      ∃ t ∈ tasks, (∃ d ∈ t.depends_on, e = (d.name, t.name)) ∨
        (∃ p ∈ t.produces, e = (t.name, p.name)) := by
  unfold create_dag
  rw [mem_edges_tasksFold]
  simp [DiGraph.empty]

/-- The node set of a built graph, characterized declaratively. -/
theorem mem_names_create_dag {tasks : List Task} {n : String} :
    n ∈ (create_dag tasks).names ↔
      ∃ t ∈ tasks, n = t.name ∨ (∃ d ∈ t.depends_on, n = d.name) ∨
        (∃ p ∈ t.produces, n = p.name) := by
  unfold create_dag
  rw [mem_names_tasksFold]
  simp [DiGraph.empty, DiGraph.names]

/-- Two task declarations that differ only in the order of their
dependency and product lists. -/
def SameDecl (t t' : Task) : Prop :=
  t.name = t'.name ∧ t.depends_on.Perm t'.depends_on ∧ t.produces.Perm t'.produces

theorem exists_mem_congr_of_perm {P : Task → Prop} {l l' : List Task} (h : l.Perm l') :
    (∃ t ∈ l, P t) ↔ ∃ t ∈ l', P t := by
  constructor <;> rintro ⟨t, ht, hp⟩
  · exact ⟨t, h.mem_iff.mp ht, hp⟩
  · exact ⟨t, h.mem_iff.mpr ht, hp⟩

theorem exists_mem_congr_of_sameDecl {P : Task → Prop}
    (hP : ∀ t t', SameDecl t t' → (P t ↔ P t')) :
    ∀ {l l' : List Task}, List.Forall₂ SameDecl l l' →
      ((∃ t ∈ l, P t) ↔ ∃ t ∈ l', P t) := by
  intro l l' h
  induction h with
  | nil => simp
  | @cons a b l l' hab _ ih =>
    simp only [List.mem_cons]
    constructor
    · rintro ⟨t, (rfl | ht), hp⟩
      · exact ⟨b, Or.inl rfl, (hP t b hab).mp hp⟩
      · obtain ⟨t', ht', hp'⟩ := ih.mp ⟨t, ht, hp⟩
        exact ⟨t', Or.inr ht', hp'⟩
    · rintro ⟨t, (rfl | ht), hp⟩
      · exact ⟨a, Or.inl rfl, (hP a t hab).mpr hp⟩
      · obtain ⟨t', ht', hp'⟩ := ih.mpr ⟨t, ht, hp⟩
        exact ⟨t', Or.inr ht', hp'⟩

theorem nodeP_sameDecl (n : String) : ∀ t t', SameDecl t t' →
    ((n = t.name ∨ (∃ d ∈ t.depends_on, n = d.name) ∨ (∃ p ∈ t.produces, n = p.name)) ↔
      (n = t'.name ∨ (∃ d ∈ t'.depends_on, n = d.name) ∨
        (∃ p ∈ t'.produces, n = p.name))) := by
  rintro t t' ⟨hn, hd, hp⟩
  rw [hn]
  refine or_congr Iff.rfl (or_congr ?_ ?_)
  · exact ⟨fun ⟨d, hm, he⟩ => ⟨d, hd.mem_iff.mp hm, he⟩,
      fun ⟨d, hm, he⟩ => ⟨d, hd.mem_iff.mpr hm, he⟩⟩
  · exact ⟨fun ⟨q, hm, he⟩ => ⟨q, hp.mem_iff.mp hm, he⟩,
      fun ⟨q, hm, he⟩ => ⟨q, hp.mem_iff.mpr hm, he⟩⟩

theorem edgeP_sameDecl (e : String × String) : ∀ t t', SameDecl t t' →
    (((∃ d ∈ t.depends_on, e = (d.name, t.name)) ∨
        (∃ p ∈ t.produces, e = (t.name, p.name))) ↔
      ((∃ d ∈ t'.depends_on, e = (d.name, t'.name)) ∨
        (∃ p ∈ t'.produces, e = (t'.name, p.name)))) := by
  rintro t t' ⟨hn, hd, hp⟩
  rw [hn]
  refine or_congr ?_ ?_
  · exact ⟨fun ⟨d, hm, he⟩ => ⟨d, hd.mem_iff.mp hm, he⟩,
      fun ⟨d, hm, he⟩ => ⟨d, hd.mem_iff.mpr hm, he⟩⟩
  · exact ⟨fun ⟨q, hm, he⟩ => ⟨q, hp.mem_iff.mp hm, he⟩,
      fun ⟨q, hm, he⟩ => ⟨q, hp.mem_iff.mpr hm, he⟩⟩

/-- C8: the build is total by construction (`create_dag` is a function
with no failure outcome); inserting the same declarations a second time
changes neither the node set nor the edge set; and permuting the task
list or each task's dependency/product lists leaves both sets unchanged. -/
theorem build_idempotent_order_independent (ts mid ts' : List Task)
    (h1 : ts.Perm mid) (h2 : List.Forall₂ SameDecl mid ts') :
    (∀ n, n ∈ (create_dag (ts ++ ts)).names ↔ n ∈ (create_dag ts).names)
    ∧ (∀ e, e ∈ (create_dag (ts ++ ts)).edges ↔ e ∈ (create_dag ts).edges)
    ∧ (∀ n, n ∈ (create_dag ts).names ↔ n ∈ (create_dag ts').names)
    ∧ (∀ e, e ∈ (create_dag ts).edges ↔ e ∈ (create_dag ts').edges) := by
  refine ⟨?_, ?_, ?_, ?_⟩
  · intro n
    rw [mem_names_create_dag, mem_names_create_dag]
    simp [List.mem_append]
  · intro e
    rw [mem_edges_create_dag, mem_edges_create_dag]
    simp [List.mem_append]
  · intro n
    rw [mem_names_create_dag, mem_names_create_dag]
    exact (exists_mem_congr_of_perm h1).trans
      (exists_mem_congr_of_sameDecl (nodeP_sameDecl n) h2)
  · intro e
    rw [mem_edges_create_dag, mem_edges_create_dag]
    exact (exists_mem_congr_of_perm h1).trans
      (exists_mem_congr_of_sameDecl (edgeP_sameDecl e) h2)

/-- A two-task declaration list and a variant with the first task's
dependency list permuted and the two tasks swapped. -/
def c8ts : List Task :=
  [⟨"W", [⟨"d1", .ok 1⟩, ⟨"d2", .ok 2⟩], [⟨"p1", .ok 3⟩], [], .ok 0⟩,
   ⟨"X", [⟨"p1", .ok 3⟩], [], [], .ok 4⟩]

def c8mid : List Task :=
  [⟨"X", [⟨"p1", .ok 3⟩], [], [], .ok 4⟩,
   ⟨"W", [⟨"d1", .ok 1⟩, ⟨"d2", .ok 2⟩], [⟨"p1", .ok 3⟩], [], .ok 0⟩]

def c8ts' : List Task :=
  [⟨"X", [⟨"p1", .ok 3⟩], [], [], .ok 4⟩,
   ⟨"W", [⟨"d2", .ok 2⟩, ⟨"d1", .ok 1⟩], [⟨"p1", .ok 3⟩], [], .ok 0⟩]

theorem build_idempotent_order_independent_witness :
    (("d1", "W") ∈ (create_dag (c8ts ++ c8ts)).edges ↔
      ("d1", "W") ∈ (create_dag c8ts).edges)
    ∧ ∀ e, e ∈ (create_dag c8ts).edges ↔ e ∈ (create_dag c8ts').edges := by
  have h := build_idempotent_order_independent c8ts c8mid c8ts'
    (by decide)
    (by
      refine List.Forall₂.cons ⟨rfl, ?_, ?_⟩ (List.Forall₂.cons ⟨rfl, ?_, ?_⟩
        List.Forall₂.nil) <;> decide)
  exact ⟨h.2.1 ("d1", "W"), h.2.2.2⟩

/-- Every node entry of `g` has at least one payload, task payloads only
on names satisfying `TN`, data payloads only on names satisfying `DN`. -/
def PayloadInv (TN DN : String → Prop) (g : DiGraph) : Prop :=
  ∀ p ∈ g.nodes, (p.2.task.isSome = true ∨ p.2.node.isSome = true)
    ∧ (p.2.task.isSome = true → TN p.1) ∧ (p.2.node.isSome = true → DN p.1)

theorem payloadInv_add_node_task {TN DN : String → Prop} {g : DiGraph}
    {name : String} {t : Task} (h : PayloadInv TN DN g) (hT : TN name) :
    PayloadInv TN DN (g.add_node_task name t) := by
  intro p hp
  unfold DiGraph.add_node_task at hp
  split at hp
  · rw [List.mem_map] at hp
    obtain ⟨q, hq, hfq⟩ := hp
    by_cases hb : q.1 = name
    · rw [if_pos (by simpa using hb)] at hfq
      subst hfq
      refine ⟨Or.inl rfl, fun _ => hb ▸ hT, fun hn => (h q hq).2.2 hn⟩
    · rw [if_neg (by simpa using hb)] at hfq
      subst hfq
      exact h q hq
  · rw [List.mem_append] at hp
    rcases hp with hp | hp
    · exact h p hp
    · rw [List.mem_singleton] at hp
      subst hp
      exact ⟨Or.inl rfl, fun _ => hT, fun hn => by cases hn⟩

theorem payloadInv_add_node_data {TN DN : String → Prop} {g : DiGraph}
    {name : String} {d : DataNode} (h : PayloadInv TN DN g) (hD : DN name) :
    PayloadInv TN DN (g.add_node_data name d) := by
  intro p hp
  unfold DiGraph.add_node_data at hp
  split at hp
  · rw [List.mem_map] at hp
    obtain ⟨q, hq, hfq⟩ := hp
    by_cases hb : q.1 = name
    · rw [if_pos (by simpa using hb)] at hfq
      subst hfq
      refine ⟨Or.inr rfl, fun ht => (h q hq).2.1 ht, fun _ => hb ▸ hD⟩
    · rw [if_neg (by simpa using hb)] at hfq
      subst hfq
      exact h q hq
  · rw [List.mem_append] at hp
    rcases hp with hp | hp
    · exact h p hp
    · rw [List.mem_singleton] at hp
      subst hp
      refine ⟨Or.inr rfl, ?_, fun _ => hD⟩
      intro ht
      cases ht

theorem nodes_add_edge_of_hasNode {g : DiGraph} {u v : String}
    (hu : g.hasNode u = true) (hv : g.hasNode v = true) :
    (g.add_edge u v).nodes = g.nodes := by
  have e1 : g.ensure_node u = g := by
    unfold DiGraph.ensure_node
    rw [if_pos hu]
  have e2 : (g.ensure_node u).ensure_node v = g := by
    rw [e1]
    unfold DiGraph.ensure_node
    rw [if_pos hv]
  simp only [DiGraph.add_edge, e2]
  split <;> rfl

theorem hasNode_add_node_data_self {g : DiGraph} {name : String} {d : DataNode} :
    (g.add_node_data name d).hasNode name = true :=
  hasNode_iff.mpr (mem_names_add_node_data.mpr (Or.inr rfl))

theorem hasNode_add_node_data_mono {g : DiGraph} {name n : String} {d : DataNode}
    (h : g.hasNode n = true) : (g.add_node_data name d).hasNode n = true :=
  hasNode_iff.mpr (mem_names_add_node_data.mpr (Or.inl (hasNode_iff.mp h)))

theorem hasNode_add_edge_mono {g : DiGraph} {u v n : String}
    (h : g.hasNode n = true) : (g.add_edge u v).hasNode n = true :=
  hasNode_iff.mpr (by
    rw [names_add_edge, mem_names_ensure_node, mem_names_ensure_node]
    exact Or.inl (Or.inl (hasNode_iff.mp h)))

theorem payloadInv_nodes_congr {TN DN : String → Prop} {g g' : DiGraph}
    (h : PayloadInv TN DN g) (he : g'.nodes = g.nodes) : PayloadInv TN DN g' := by
  intro p hp
  rw [he] at hp
  exact h p hp

theorem payloadInv_depsFold {TN DN : String → Prop} (tn : String) :
    ∀ (deps : List DataNode) (g : DiGraph), PayloadInv TN DN g →
      g.hasNode tn = true → (∀ d ∈ deps, DN d.name) →
      PayloadInv TN DN (deps.foldl
        (fun g dep => (g.add_node_data dep.name dep).add_edge dep.name tn) g)
      ∧ (deps.foldl
        (fun g dep => (g.add_node_data dep.name dep).add_edge dep.name tn) g).hasNode tn
        = true := by
  intro deps
  induction deps with
  | nil => intro g h htn _; exact ⟨h, htn⟩
  | cons d deps ih =>
    intro g h htn hD
    simp only [List.foldl_cons]
    have h1 : PayloadInv TN DN (g.add_node_data d.name d) :=
      payloadInv_add_node_data h (hD d (List.mem_cons_self _ _))
    have h2 : PayloadInv TN DN ((g.add_node_data d.name d).add_edge d.name tn) :=
      payloadInv_nodes_congr h1
        (nodes_add_edge_of_hasNode hasNode_add_node_data_self
          (hasNode_add_node_data_mono htn))
    exact ih _ h2 (hasNode_add_edge_mono (hasNode_add_node_data_mono htn))
      (fun q hq => hD q (List.mem_cons_of_mem _ hq))

theorem payloadInv_prodsFold {TN DN : String → Prop} (tn : String) :
    ∀ (prods : List DataNode) (g : DiGraph), PayloadInv TN DN g →
      g.hasNode tn = true → (∀ d ∈ prods, DN d.name) →
      PayloadInv TN DN (prods.foldl
        (fun g p => (g.add_node_data p.name p).add_edge tn p.name) g) := by
  intro prods
  induction prods with
  | nil => intro g h _ _; exact h
  | cons q prods ih =>
    intro g h htn hD
    simp only [List.foldl_cons]
    have h1 : PayloadInv TN DN (g.add_node_data q.name q) :=
      payloadInv_add_node_data h (hD q (List.mem_cons_self _ _))
    have h2 : PayloadInv TN DN ((g.add_node_data q.name q).add_edge tn q.name) :=
      payloadInv_nodes_congr h1
        (nodes_add_edge_of_hasNode (hasNode_add_node_data_mono htn)
          hasNode_add_node_data_self)
    exact ih _ h2 (hasNode_add_edge_mono (hasNode_add_node_data_mono htn))
      (fun x hx => hD x (List.mem_cons_of_mem _ hx))

theorem hasNode_add_node_task_self {g : DiGraph} {name : String} {t : Task} :
    (g.add_node_task name t).hasNode name = true :=
  hasNode_iff.mpr (mem_names_add_node_task.mpr (Or.inr rfl))

theorem payloadInv_addTask {TN DN : String → Prop} {g : DiGraph} {t : Task}
    (h : PayloadInv TN DN g) (hT : TN t.name)
    (hD : ∀ d, (d ∈ t.depends_on ∨ d ∈ t.produces) → DN d.name) :
    PayloadInv TN DN (addTask g t) := by
  simp only [addTask]
  have h1 : PayloadInv TN DN (g.add_node_task t.name t) :=
    payloadInv_add_node_task h hT
  obtain ⟨h2, htn⟩ := payloadInv_depsFold t.name t.depends_on _ h1
    hasNode_add_node_task_self (fun d hd => hD d (Or.inl hd))
  exact payloadInv_prodsFold t.name t.produces _ h2 htn
    (fun d hd => hD d (Or.inr hd))

theorem payloadInv_tasksFold {TN DN : String → Prop} :
    ∀ (tasks : List Task) (g : DiGraph), PayloadInv TN DN g →
      (∀ t ∈ tasks, TN t.name) →
      (∀ t ∈ tasks, ∀ d, (d ∈ t.depends_on ∨ d ∈ t.produces) → DN d.name) →
      PayloadInv TN DN (tasks.foldl addTask g) := by
  intro tasks
  induction tasks with
  | nil => intro g h _ _; exact h
  | cons t tasks ih =>
    intro g h hT hD
    simp only [List.foldl_cons]
    exact ih _ (payloadInv_addTask h (hT t (List.mem_cons_self _ _))
        (hD t (List.mem_cons_self _ _)))
      (fun x hx => hT x (List.mem_cons_of_mem _ hx))
      (fun x hx => hD x (List.mem_cons_of_mem _ hx))

theorem create_dag_payloadInv (tasks : List Task) :
    PayloadInv (fun n => ∃ t ∈ tasks, t.name = n)
      (fun n => ∃ t ∈ tasks, ∃ d, (d ∈ t.depends_on ∨ d ∈ t.produces) ∧ d.name = n)
      (create_dag tasks) := by
  unfold create_dag
  refine payloadInv_tasksFold tasks DiGraph.empty (fun p hp => by cases hp) ?_ ?_
  · exact fun t ht => ⟨t, ht, rfl⟩
  · exact fun t ht d hd => ⟨t, ht, d, hd, rfl⟩

/-- C9 (amended): when no dependency or product name collides with a task
name, every node of the built graph carries exactly one payload kind:
either a task payload and no data payload, or a data payload and no task
payload. -/
theorem exclusive_payload (tasks : List Task)
    (hdisj : ∀ t ∈ tasks, ∀ x ∈ tasks, ∀ d ∈ x.depends_on ++ x.produces,
      d.name ≠ t.name) :
    ∀ p ∈ (create_dag tasks).nodes,
      (p.2.task.isSome = true ∧ p.2.node = none)
      ∨ (p.2.node.isSome = true ∧ p.2.task = none) := by
  intro p hp
  obtain ⟨hsome, hTN, hDN⟩ := create_dag_payloadInv tasks p hp
  cases htask : p.2.task with
  | some t0 =>
    left
    refine ⟨rfl, ?_⟩
    cases hnode : p.2.node with
    | none => rfl
    | some d0 =>
      obtain ⟨t, ht, htn⟩ := hTN (by rw [htask]; rfl)
      obtain ⟨x, hx, d, hd, hdn⟩ := hDN (by rw [hnode]; rfl)
      exact absurd (hdn.trans htn.symm)
        (hdisj t ht x hx d (List.mem_append.mpr hd))
  | none =>
    right
    rcases hsome with hs | hs
    · rw [htask] at hs; cases hs
    · exact ⟨hs, rfl⟩

/-- The first task of `c8ts` and its attribute entry in the built graph. -/
def wTask : Task := ⟨"W", [⟨"d1", .ok 1⟩, ⟨"d2", .ok 2⟩], [⟨"p1", .ok 3⟩], [], .ok 0⟩

theorem exclusive_payload_witness :
    (("W", (⟨some wTask, none⟩ : NodeAttrs)) ∈ (create_dag c8ts).nodes)
    ∧ (((⟨some wTask, none⟩ : NodeAttrs).task.isSome = true ∧
        (⟨some wTask, none⟩ : NodeAttrs).node = none)
      ∨ ((⟨some wTask, none⟩ : NodeAttrs).node.isSome = true ∧
        (⟨some wTask, none⟩ : NodeAttrs).task = none)) := by
  have hm : ("W", (⟨some wTask, none⟩ : NodeAttrs)) ∈ (create_dag c8ts).nodes := by
    decide
  exact ⟨hm, exclusive_payload c8ts (by decide) _ hm⟩

/-- A task that declares a dependency with its own name: the built graph
merges both payloads onto one node, refuting the claim that a node never
carries both. -/
def selfNamedTask : Task := ⟨"a", [⟨"a", .ok 0⟩], [], [], .ok 0⟩

theorem exclusive_payload_counterexample :
    ∃ p ∈ (create_dag [selfNamedTask]).nodes,
      p.2.task.isSome = true ∧ p.2.node.isSome = true := by
  decide

/-- C10: `_has_node_changed` reads the payload through
`node_dict.get("task", None) or node_dict["node"]`: with both payloads
present it uses the task's name and state and ignores the data payload
entirely; the data payload is consulted exactly when no task payload is
present. -/
theorem payload_preference (db : StateDB) (tn : String) (t : Task) (d : DataNode) :
    NodeAttrs.payloadNameState ⟨some t, some d⟩ = some (t.name, t.state)
    ∧ NodeAttrs.payloadNameState ⟨none, some d⟩ = some (d.name, d.state)
    ∧ _has_node_changed db tn ⟨some t, some d⟩ = _has_node_changed db tn ⟨some t, none⟩ :=
  ⟨rfl, rfl, rfl⟩

/-- The marker list of the task payload at a node (empty when the node or
its task payload is absent). -/
def markersOf (g : DiGraph) (name : String) : List Mark :=
  match (g.attr? name).bind NodeAttrs.task with
  | some t => t.markers
  | none => []

/-- A task with its markers stripped: what the selector cannot change. -/
def eraseT (t : Task) : Task := { t with markers := [] }

/-- Attribute dictionary with task markers stripped. -/
def eraseA (a : NodeAttrs) : NodeAttrs := { a with task := a.task.map eraseT }

/-- A graph with all task markers stripped: the selector's loop preserves
this view of the graph exactly. -/
def eraseG (g : DiGraph) : DiGraph :=
  { g with nodes := g.nodes.map (fun p => (p.1, eraseA p.2)) }

theorem eraseG_edges (g : DiGraph) : (eraseG g).edges = g.edges := rfl

theorem edges_of_eraseG_eq {g g' : DiGraph} (h : eraseG g = eraseG g') :
    g.edges = g'.edges := by
  have := congrArg DiGraph.edges h
  rwa [eraseG_edges, eraseG_edges] at this

theorem eraseG_names (g : DiGraph) : (eraseG g).names = g.names :=
  names_map_fst_update (fun _ => rfl)

theorem names_of_eraseG_eq {g g' : DiGraph} (h : eraseG g = eraseG g') :
    g.names = g'.names := by
  have := congrArg DiGraph.names h
  rwa [eraseG_names, eraseG_names] at this

theorem find?_map_fst_preserving (f : String × NodeAttrs → String × NodeAttrs)
    (hf : ∀ p, (f p).1 = p.1) (l : List (String × NodeAttrs)) (n : String) :
    (l.map f).find? (fun p => p.1 == n) = (l.find? (fun p => p.1 == n)).map f := by
  induction l with
  | nil => rfl
  | cons p l ih =>
    simp only [List.map_cons, List.find?_cons]
    rw [hf p]
    cases hb : (p.1 == n) <;> simp [ih]

theorem findSome?_congr {α β : Type} {f f' : α → Option β} {l : List α}
    (h : ∀ x ∈ l, f x = f' x) : l.findSome? f = l.findSome? f' := by
  induction l with
  | nil => rfl
  | cons x xs ih =>
    rw [List.findSome?_cons, List.findSome?_cons, h x (List.mem_cons_self _ _)]
    cases f' x with
    | some b => rfl
    | none => exact ih (fun y hy => h y (List.mem_cons_of_mem _ hy))

theorem attr?_eraseG (g : DiGraph) (n : String) :
    (eraseG g).attr? n = (g.attr? n).map eraseA := by
  show ((g.nodes.map (fun p => (p.1, eraseA p.2))).find? (fun p => p.1 == n)).map Prod.snd
      = ((g.nodes.find? (fun p => p.1 == n)).map Prod.snd).map eraseA
  rw [find?_map_fst_preserving (fun p => (p.1, eraseA p.2)) (fun p => rfl) g.nodes n]
  cases g.nodes.find? (fun p => p.1 == n) <;> rfl

theorem attr?_map_erase_eq {g g' : DiGraph} (h : eraseG g = eraseG g') (n : String) :
    (g.attr? n).map eraseA = (g'.attr? n).map eraseA := by
  rw [← attr?_eraseG, ← attr?_eraseG, h]

theorem payloadNameState_eraseA (a : NodeAttrs) :
    (eraseA a).payloadNameState = a.payloadNameState := by
  unfold eraseA NodeAttrs.payloadNameState eraseT
  cases a.task <;> rfl

theorem has_node_changed_congr {db : StateDB} {tn : String} {a a' : NodeAttrs}
    (h : a.payloadNameState = a'.payloadNameState) :
    _has_node_changed db tn a = _has_node_changed db tn a' := by
  unfold _has_node_changed
  rw [h]

theorem hasTask_congr {g g' : DiGraph} (h : eraseG g = eraseG g') (n : String) :
    g.hasTask n = g'.hasTask n := by
  have ha := attr?_map_erase_eq h n
  unfold DiGraph.hasTask
  cases h1 : g.attr? n with
  | none =>
    cases h2 : g'.attr? n with
    | none => rfl
    | some a' => rw [h1, h2] at ha; cases ha
  | some a =>
    cases h2 : g'.attr? n with
    | none => rw [h1, h2] at ha; cases ha
    | some a' =>
      rw [h1, h2] at ha
      simp only [Option.map_some', Option.some.injEq] at ha
      have : (eraseA a).task.isSome = (eraseA a').task.isSome := by rw [ha]
      simpa [eraseA, Option.isSome_map'] using this

theorem succs_congr {g g' : DiGraph} (h : g.edges = g'.edges) (n : String) :
    g.succs n = g'.succs n := by
  unfold DiGraph.succs
  rw [h]

theorem preds_congr {g g' : DiGraph} (h : g.edges = g'.edges) (n : String) :
    g.preds n = g'.preds n := by
  unfold DiGraph.preds
  rw [h]

theorem findPathAux_congr {g g' : DiGraph} (h : g.edges = g'.edges) :
    ∀ (fuel : Nat) (u v : String), findPathAux g fuel u v = findPathAux g' fuel u v := by
  intro fuel
  induction fuel with
  | zero => intro u v; rfl
  | succ fuel ih =>
    intro u v
    simp only [findPathAux]
    rw [succs_congr h]
    split
    · rfl
    · exact findSome?_congr (fun w _ => by rw [ih])

theorem reachB_congr {g g' : DiGraph} (h : g.edges = g'.edges) (u v : String) :
    ReachB g u v = ReachB g' u v := by
  unfold ReachB
  rw [h, findPathAux_congr h]

theorem descending_congr {g g' : DiGraph} (h : eraseG g = eraseG g') (tn : String) :
    task_and_descending_tasks tn g = task_and_descending_tasks tn g' := by
  unfold task_and_descending_tasks
  rw [names_of_eraseG_eq h]
  refine List.filter_congr (fun n _ => ?_)
  rw [hasTask_congr h, reachB_congr (edges_of_eraseG_eq h)]

theorem anyM_congr {α : Type} {f f' : α → Except Exc Bool} {l : List α}
    (h : ∀ x ∈ l, f x = f' x) : anyM f l = anyM f' l := by
  induction l with
  | nil => rfl
  | cons x xs ih =>
    simp only [anyM]
    rw [h x (List.mem_cons_self _ _)]
    cases f' x with
    | error e => rfl
    | ok b =>
      cases b
      · exact ih (fun y hy => h y (List.mem_cons_of_mem _ hy))
      · rfl

theorem have_changed_congr {db : StateDB} {tn : String} {g g' : DiGraph}
    (h : eraseG g = eraseG g') :
    _have_task_or_neighbors_changed db tn g = _have_task_or_neighbors_changed db tn g' := by
  unfold _have_task_or_neighbors_changed node_and_neigbors entryChanged
  rw [preds_congr (edges_of_eraseG_eq h), succs_congr (edges_of_eraseG_eq h)]
  refine anyM_congr (fun n _ => ?_)
  have ha := attr?_map_erase_eq h n
  cases h1 : g.attr? n with
  | none =>
    cases h2 : g'.attr? n with
    | none => rfl
    | some a' => rw [h1, h2] at ha; cases ha
  | some a =>
    cases h2 : g'.attr? n with
    | none => rw [h1, h2] at ha; cases ha
    | some a' =>
      rw [h1, h2] at ha
      simp only [Option.map_some', Option.some.injEq] at ha
      refine has_node_changed_congr ?_
      rw [← payloadNameState_eraseA a, ← payloadNameState_eraseA a', ha]

theorem eraseG_attachSkip (g : DiGraph) (tn : String) :
    eraseG (attachSkip g tn) = eraseG g := by
  unfold eraseG attachSkip
  simp only [List.map_map]
  refine congrArg (fun l => DiGraph.mk l g.edges) ?_
  refine List.map_congr_left (fun p _ => ?_)
  obtain ⟨pn, ptask, pnode⟩ := p
  simp only [Function.comp]
  split
  · cases ptask <;> rfl
  · rfl

theorem attr?_attachSkip (g : DiGraph) (tn n : String) :
    (attachSkip g tn).attr? n = (g.attr? n).map (fun a =>
      if n = tn then { a with task := a.task.map (fun t =>
        { t with markers := t.markers ++ [skipMark] }) } else a) := by
  show ((g.nodes.map (fun p =>
      if p.1 == tn then (p.1, { p.2 with task := p.2.task.map (fun t =>
        { t with markers := t.markers ++ [skipMark] }) }) else p)).find?
        (fun p => p.1 == n)).map Prod.snd =
    ((g.nodes.find? (fun p => p.1 == n)).map Prod.snd).map (fun a =>
      if n = tn then { a with task := a.task.map (fun t =>
        { t with markers := t.markers ++ [skipMark] }) } else a)
  rw [find?_map_fst_preserving
    (fun p => if p.1 == tn then (p.1, { p.2 with task := p.2.task.map (fun t =>
      { t with markers := t.markers ++ [skipMark] }) }) else p)
    (fun p => by dsimp only; split <;> rfl) g.nodes n]
  cases hf : g.nodes.find? (fun p => p.1 == n) with
  | none => rfl
  | some q =>
    have hq : q.1 = n := by
      have := List.find?_some hf
      simpa using this
    simp only [Option.map_some']
    rw [hq]
    split <;> rename_i hbt
    · rw [if_pos (by simpa using hbt)]
    · rw [if_neg (by simpa using hbt)]

theorem markersOf_attachSkip_self {g : DiGraph} {tn : String} {a : NodeAttrs} {t : Task}
    (ha : g.attr? tn = some a) (ht : a.task = some t) :
    markersOf (attachSkip g tn) tn = markersOf g tn ++ [skipMark] := by
  unfold markersOf
  rw [attr?_attachSkip, ha]
  simp [ht]

theorem markersOf_attachSkip_other {g : DiGraph} {tn n : String} (hne : n ≠ tn) :
    markersOf (attachSkip g tn) n = markersOf g n := by
  unfold markersOf
  rw [attr?_attachSkip]
  cases g.attr? n <;> simp [hne]

theorem selStep_cases (db : StateDB) (s : SelState) (tn : String) :
    (selStep db s tn).dag = s.dag ∨
      ((selStep db s tn).dag = attachSkip s.dag tn ∧ s.err = none ∧ tn ∉ s.visited) := by
  unfold selStep
  cases s.err with
  | some e => exact Or.inl rfl
  | none =>
    by_cases hv : tn ∈ s.visited
    · rw [if_pos hv]
      exact Or.inl rfl
    · rw [if_neg hv]
      cases _have_task_or_neighbors_changed db tn s.dag with
      | error e => exact Or.inl rfl
      | ok b =>
        cases b
        · cases (s.dag.attr? tn).bind NodeAttrs.task with
          | some t => exact Or.inr ⟨rfl, rfl, hv⟩
          | none => exact Or.inl rfl
        · exact Or.inl rfl

theorem selStep_visited_mono (db : StateDB) (s : SelState) (tn : String) :
    ∀ x ∈ s.visited, x ∈ (selStep db s tn).visited := by
  intro x hx
  unfold selStep
  cases s.err with
  | some e => exact hx
  | none =>
    by_cases hv : tn ∈ s.visited
    · rw [if_pos hv]; exact hx
    · rw [if_neg hv]
      cases _have_task_or_neighbors_changed db tn s.dag with
      | error e => exact hx
      | ok b =>
        cases b
        · cases (s.dag.attr? tn).bind NodeAttrs.task with
          | some t => exact hx
          | none => exact hx
        · exact List.mem_append_left _ hx

theorem selStep_eraseG (db : StateDB) (s : SelState) (tn : String) :
    eraseG (selStep db s tn).dag = eraseG s.dag := by
  rcases selStep_cases db s tn with h | ⟨h, _, _⟩
  · rw [h]
  · rw [h, eraseG_attachSkip]

theorem markersOf_selStep_ne {db : StateDB} {s : SelState} {tn n : String}
    (hne : n ≠ tn) : markersOf (selStep db s tn).dag n = markersOf s.dag n := by
  rcases selStep_cases db s tn with h | ⟨h, _, _⟩
  · rw [h]
  · rw [h, markersOf_attachSkip_other hne]

theorem run_eraseG (db : StateDB) :
    ∀ (order : List String) (s : SelState),
      eraseG (order.foldl (selStep db) s).dag = eraseG s.dag := by
  intro order
  induction order with
  | nil => intro s; rfl
  | cons tn order ih =>
    intro s
    simp only [List.foldl_cons]
    rw [ih, selStep_eraseG]

theorem run_visited_mono (db : StateDB) :
    ∀ (order : List String) (s : SelState) (x : String),
      x ∈ s.visited → x ∈ (order.foldl (selStep db) s).visited := by
  intro order
  induction order with
  | nil => intro s x hx; exact hx
  | cons tn order ih =>
    intro s x hx
    simp only [List.foldl_cons]
    exact ih _ x (selStep_visited_mono db s tn x hx)

theorem run_markers_of_visited (db : StateDB) :
    ∀ (order : List String) (s : SelState) (n : String), n ∈ s.visited →
      markersOf (order.foldl (selStep db) s).dag n = markersOf s.dag n := by
  intro order
  induction order with
  | nil => intro s n _; rfl
  | cons tn order ih =>
    intro s n hn
    simp only [List.foldl_cons]
    rw [ih _ n (selStep_visited_mono db s tn n hn)]
    rcases selStep_cases db s tn with h | ⟨h, _, hnv⟩
    · rw [h]
    · have hne : n ≠ tn := fun he => hnv (he ▸ hn)
      rw [h, markersOf_attachSkip_other hne]

theorem run_markers_not_mem (db : StateDB) :
    ∀ (order : List String) (s : SelState) (n : String), n ∉ order →
      markersOf (order.foldl (selStep db) s).dag n = markersOf s.dag n := by
  intro order
  induction order with
  | nil => intro s n _; rfl
  | cons tn order ih =>
    intro s n hn
    simp only [List.foldl_cons]
    have hne : n ≠ tn := fun he => hn (he ▸ List.mem_cons_self _ _)
    rw [ih _ n (fun hm => hn (List.mem_cons_of_mem _ hm)), markersOf_selStep_ne hne]

/-- The selector's state after processing a prefix of the order. -/
def prefixState (db : StateDB) (g : DiGraph) (pre : List String) : SelState :=
  pre.foldl (selStep db) ⟨g, [], none⟩

/-- The processing order is a valid topological linearization: no element
reaches an element placed before it.  Since reachability is reflexive this
also forces the order to be duplicate-free. -/
def TopoTaskOrder (g : DiGraph) (order : List String) : Prop :=
  List.Pairwise (fun a b => ReachB g b a = false) order

instance {g : DiGraph} {order : List String} : Decidable (TopoTaskOrder g order) :=
  List.instDecidablePairwise order

theorem reachB_refl (g : DiGraph) (u : String) : ReachB g u u = true := by
  unfold ReachB
  rw [findPathAux_refl]
  rfl

theorem topo_not_mem_of_split {g : DiGraph} {order pre post : List String} {t : String}
    (h : TopoTaskOrder g order) (ho : order = pre ++ t :: post) :
    t ∉ pre ∧ t ∉ post := by
  subst ho
  obtain ⟨h1, h2, h3⟩ := List.pairwise_append.mp h
  constructor
  · intro hm
    have := h3 t hm t (List.mem_cons_self _ _)
    rw [reachB_refl] at this
    cases this
  · intro hm
    have := (List.pairwise_cons.mp h2).1 t hm
    rw [reachB_refl] at this
    cases this

theorem topo_not_reach_of_mem_pre {g : DiGraph} {order pre post : List String}
    {t d : String} (h : TopoTaskOrder g order) (ho : order = pre ++ t :: post)
    (hd : d ∈ pre) (hr : ReachB g t d = true) : False := by
  subst ho
  obtain ⟨h1, h2, h3⟩ := List.pairwise_append.mp h
  have := h3 d hd t (List.mem_cons_self _ _)
  rw [hr] at this
  cases this

/-- The selector actually scanned `t` (the pass reached `t`'s turn without
a pending exception, `t` was not in `visited_nodes`) and the neighborhood
scan returned changed. -/
def DeterminedChanged (db : StateDB) (g : DiGraph) (order : List String)
    (t : String) : Prop :=
  ∃ pre post, order = pre ++ t :: post ∧ (prefixState db g pre).err = none ∧
    t ∉ (prefixState db g pre).visited ∧
    _have_task_or_neighbors_changed db t (prefixState db g pre).dag = .ok true

theorem hasTask_bind {g : DiGraph} {n : String} :
    g.hasTask n = true ↔ ∃ t, (g.attr? n).bind NodeAttrs.task = some t := by
  unfold DiGraph.hasTask
  cases ha : g.attr? n with
  | none => simp
  | some a => cases ht : a.task <;> simp [ht]

theorem mem_names_of_hasTask {g : DiGraph} {n : String}
    (h : g.hasTask n = true) : n ∈ g.names := by
  unfold DiGraph.hasTask at h
  cases ha : g.attr? n with
  | none => rw [ha] at h; cases h
  | some a =>
    unfold DiGraph.attr? at ha
    obtain ⟨q, hq, _⟩ := Option.map_eq_some'.mp ha
    have hq1 : q.1 = n := by
      have := List.find?_some hq
      simpa using this
    exact hq1 ▸ List.mem_map.mpr ⟨q, List.mem_of_find?_eq_some hq, rfl⟩

theorem mem_descending {g : DiGraph} {tn d : String}
    (ht : g.hasTask d = true) (hr : ReachB g tn d = true) :
    d ∈ task_and_descending_tasks tn g := by
  unfold task_and_descending_tasks
  refine List.mem_filter.mpr ⟨mem_names_of_hasTask ht, ?_⟩
  rw [ht, hr]
  rfl

theorem select_loop_split (db : StateDB) (g : DiGraph) {order pre post : List String}
    {t : String} (ho : order = pre ++ t :: post) :
    select_loop db order g =
      post.foldl (selStep db) (selStep db (prefixState db g pre) t) := by
  unfold select_loop prefixState
  rw [ho, List.foldl_append, List.foldl_cons]

/-- C1: Monotonic invalidation: when a task is determined changed by the
selector, every task reachable from it by a directed path keeps its marker
list unchanged (no `skip_unchanged` is ever attached to it in this pass);
and a task that is already in `visited_nodes` when its turn arrives has
its scan skipped and likewise keeps its marker list unchanged. -/
theorem monotonic_invalidation (db : StateDB) (g : DiGraph) (order : List String)
    (htopo : TopoTaskOrder g order) :
    (∀ t d, DeterminedChanged db g order t → Reach g t d → g.hasTask d = true →
      markersOf (select_loop db order g).dag d = markersOf g d)
    ∧ (∀ pre t post, order = pre ++ t :: post →
        t ∈ (prefixState db g pre).visited →
        markersOf (select_loop db order g).dag t = markersOf g t) := by
  constructor
  · rintro t d ⟨pre, post, horder, herr, hnv, hch⟩ hreach htask
    have hreachB : ReachB g t d = true := reach_iff_reachB.mp hreach
    have hdpre : d ∉ pre := fun hm => topo_not_reach_of_mem_pre htopo horder hm hreachB
    have herase : eraseG (prefixState db g pre).dag = eraseG g :=
      run_eraseG db pre ⟨g, [], none⟩
    have hstep : selStep db (prefixState db g pre) t =
        { prefixState db g pre with visited := (prefixState db g pre).visited ++
            task_and_descending_tasks t (prefixState db g pre).dag } := by
      simp only [selStep, herr, if_neg hnv, hch]
    have hd2 : d ∈ (selStep db (prefixState db g pre) t).visited := by
      rw [hstep]
      refine List.mem_append_right _ ?_
      rw [descending_congr herase t]
      exact mem_descending htask hreachB
    rw [select_loop_split db g horder,
      run_markers_of_visited db post _ d hd2,
      show (selStep db (prefixState db g pre) t).dag = (prefixState db g pre).dag from
        by rw [hstep]]
    exact run_markers_not_mem db pre _ d hdpre
  · rintro pre t post horder hvis
    obtain ⟨hpre, _⟩ := topo_not_mem_of_split htopo horder
    have hstep : selStep db (prefixState db g pre) t = prefixState db g pre := by
      cases herr : (prefixState db g pre).err with
      | some e => simp [selStep, herr]
      | none => simp [selStep, herr, hvis]
    rw [select_loop_split db g horder, hstep,
      run_markers_of_visited db post _ t hvis]
    exact run_markers_not_mem db pre _ t hpre

/-- The graph of scenario 7 of the spec: task `A` produces file `f`, task
`B` depends on it. -/
def g0 : DiGraph :=
  create_dag [⟨"A", [], [⟨"f", .ok 5⟩], [], .ok 1⟩,
    ⟨"B", [⟨"f", .ok 5⟩], [], [], .ok 2⟩]

/-- The empty persisted-state store. -/
def dbEmpty : StateDB := fun _ _ => none

theorem monotonic_invalidation_witness :
    markersOf (select_loop dbEmpty ["A", "B"] g0).dag "B" = markersOf g0 "B" := by
  refine (monotonic_invalidation dbEmpty g0 ["A", "B"] (by decide)).1 "A" "B"
    ⟨[], ["B"], rfl, by decide, by decide, by decide⟩ ⟨["f", "B"], by decide⟩ (by decide)

/-- The node's payload has a current fingerprint and the persisted store
holds the same fingerprint under (task name, node name). -/
def nodeUnchangedB (db : StateDB) (tn : String) (g : DiGraph) (n : String) : Bool :=
  match g.attr? n with
  | none => false
  | some a =>
    match a.payloadNameState with
    | none => false
    | some (nname, st) =>
      match st with
      | .ok f => db tn nname == some f
      | .error _ => false

theorem entryChanged_of_unchanged {db : StateDB} {tn : String} {g : DiGraph} {n : String}
    (h : nodeUnchangedB db tn g n = true) : entryChanged db tn g n = .ok false := by
  unfold nodeUnchangedB at h
  unfold entryChanged _has_node_changed
  cases ha : g.attr? n with
  | none => rw [ha] at h; cases h
  | some a =>
    simp only [ha] at h ⊢
    cases hp : a.payloadNameState with
    | none => simp only [hp] at h; cases h
    | some pr =>
      obtain ⟨nname, st⟩ := pr
      simp only [hp] at h ⊢
      cases st with
      | error se => simp at h
      | ok f =>
        have hdb : db tn nname = some f := eq_of_beq (by simpa using h)
        simp [hdb]

theorem anyM_all_false {α : Type} (f : α → Except Exc Bool) (l : List α)
    (h : ∀ x ∈ l, f x = .ok false) : anyM f l = .ok false := by
  induction l with
  | nil => rfl
  | cons x xs ih =>
    simp only [anyM]
    rw [h x (List.mem_cons_self _ _)]
    exact ih (fun y hy => h y (List.mem_cons_of_mem _ hy))

/-- C2 (amended): if every node in the task's one-hop neighborhood has a
current fingerprint equal to the persisted one, the task was not put into
`visited_nodes` by propagation before its turn, and no state-query fault
aborted the pass before its turn, then the pass attaches exactly one
`skip_unchanged` marker to the task. -/
theorem unchanged_stability (db : StateDB) (g : DiGraph) (order : List String)
    (htopo : TopoTaskOrder g order) (pre : List String) (t : String) (post : List String)
    (horder : order = pre ++ t :: post)
    (herr : (prefixState db g pre).err = none)
    (hnv : t ∉ (prefixState db g pre).visited)
    (htask : g.hasTask t = true)
    (hstable : ∀ n ∈ node_and_neigbors g t, nodeUnchangedB db t g n = true) :
    markersOf (select_loop db order g).dag t = markersOf g t ++ [skipMark] := by
  obtain ⟨hpre, hpost⟩ := topo_not_mem_of_split htopo horder
  have herase : eraseG (prefixState db g pre).dag = eraseG g :=
    run_eraseG db pre ⟨g, [], none⟩
  have hch : _have_task_or_neighbors_changed db t (prefixState db g pre).dag =
      .ok false := by
    rw [have_changed_congr herase]
    exact anyM_all_false _ _ (fun n hn => entryChanged_of_unchanged (hstable n hn))
  have htask1 : (prefixState db g pre).dag.hasTask t = true := by
    rw [hasTask_congr herase]
    exact htask
  obtain ⟨tk, htk⟩ := hasTask_bind.mp htask1
  have hstep : selStep db (prefixState db g pre) t =
      { prefixState db g pre with dag := attachSkip (prefixState db g pre).dag t } := by
    simp only [selStep, herr, if_neg hnv, hch, htk]
  have ha : ∃ a, (prefixState db g pre).dag.attr? t = some a ∧ a.task = some tk := by
    cases ha' : (prefixState db g pre).dag.attr? t with
    | none => rw [ha'] at htk; cases htk
    | some a =>
      rw [ha'] at htk
      exact ⟨a, rfl, htk⟩
  obtain ⟨a, ha1, ha2⟩ := ha
  rw [select_loop_split db g horder, run_markers_not_mem db post _ t hpost, hstep,
    markersOf_attachSkip_self ha1 ha2]
  exact congrArg (fun l => l ++ [skipMark]) (run_markers_not_mem db pre ⟨g, [], none⟩ t hpre)

/-- A state store matching every fingerprint of `g0`. -/
def db2 : StateDB := fun t n =>
  if t == "A" && n == "A" then some 1
  else if t == "A" && n == "f" then some 5
  else if t == "B" && n == "B" then some 2
  else if t == "B" && n == "f" then some 5
  else none

theorem unchanged_stability_witness :
    markersOf (select_loop db2 ["A", "B"] g0).dag "A" = markersOf g0 "A" ++ [skipMark] :=
  unchanged_stability db2 g0 ["A", "B"] (by decide) [] "A" ["B"] rfl
    (by decide) (by decide) (by decide) (by decide)

/-- Two independent tasks; the first one's product state query fails with
a non-not-found fault, the second one's whole neighborhood is stable. -/
def gU : DiGraph :=
  create_dag [⟨"U1", [], [⟨"p2", .error .other⟩], [], .ok 3⟩,
    ⟨"U2", [], [⟨"p1", .ok 7⟩], [], .ok 4⟩]

/-- Records matching the states of `gU` except for the faulting product. -/
def dbU : StateDB := fun t n =>
  if t == "U1" && n == "U1" then some 3
  else if t == "U2" && n == "U2" then some 4
  else if t == "U2" && n == "p1" then some 7
  else none

theorem unchanged_stability_counterexample :
    TopoTaskOrder gU ["U1", "U2"]
    ∧ (∀ n ∈ node_and_neigbors gU "U2", nodeUnchangedB dbU "U2" gU n = true)
    ∧ "U2" ∉ (prefixState dbU gU ["U1"]).visited
    ∧ markersOf (select_loop dbU ["U1", "U2"] gU).dag "U2" = markersOf gU "U2"
    ∧ skipMark ∉ markersOf (select_loop dbU ["U1", "U2"] gU).dag "U2" := by
  refine ⟨by decide, by decide, by decide, by decide, by decide⟩

/-- C5 (amended): only a `NodeNotFoundError` from the state query makes
`_has_node_changed` report changed; any other state-query fault makes it
raise, and the selector's loop records that exception as fatal for the
rest of the pass. -/
theorem state_query_fault_fatal (db : StateDB) (tn : String) (a : NodeAttrs)
    (nname : String) (st : StateResult) (hp : a.payloadNameState = some (nname, st)) :
    (st = .error .notFound → _has_node_changed db tn a = .ok true)
    ∧ (st = .error .other → _has_node_changed db tn a = .error .stateFault)
    ∧ (∀ (s : SelState) (tn' : String) (e : Exc), s.err = none → tn' ∉ s.visited →
        _have_task_or_neighbors_changed db tn' s.dag = .error e →
        (selStep db s tn').err = some e) := by
  refine ⟨?_, ?_, ?_⟩
  · rintro rfl
    unfold _has_node_changed
    rw [hp]
  · rintro rfl
    unfold _has_node_changed
    rw [hp]
  · intro s tn' e herr hnv hch
    simp [selStep, herr, hnv, hch]

theorem state_query_fault_fatal_witness :
    _has_node_changed dbEmpty "T" ⟨none, some ⟨"p", .error .notFound⟩⟩ = .ok true
    ∧ _has_node_changed dbEmpty "T" ⟨none, some ⟨"q", .error .other⟩⟩ =
        .error .stateFault := by
  have h1 := state_query_fault_fatal dbEmpty "T" ⟨none, some ⟨"p", .error .notFound⟩⟩
    "p" (.error .notFound) rfl
  have h2 := state_query_fault_fatal dbEmpty "T" ⟨none, some ⟨"q", .error .other⟩⟩
    "q" (.error .other) rfl
  exact ⟨h1.1 rfl, h2.2.1 rfl⟩

theorem state_query_fault_counterexample :
    _has_node_changed dbU "U1" ⟨none, some ⟨"p2", .error .other⟩⟩ ≠ .ok true
    ∧ (select_loop dbU ["U1", "U2"] gU).err = some .stateFault := by
  refine ⟨by decide, by decide⟩

theorem entryChanged_empty_db {db : StateDB} (hdb : ∀ a b, db a b = none)
    (tn : String) (g : DiGraph) (n : String) :
    entryChanged db tn g n ≠ .ok false := by
  intro h
  unfold entryChanged _has_node_changed at h
  cases ha : g.attr? n with
  | none => rw [ha] at h; cases h
  | some a =>
    simp only [ha] at h
    cases hp : a.payloadNameState with
    | none => simp only [hp] at h; cases h
    | some pr =>
      obtain ⟨nname, st⟩ := pr
      simp only [hp] at h
      cases st with
      | error se => cases se <;> simp at h
      | ok f =>
        rw [hdb tn nname] at h
        simp at h

theorem have_changed_empty_db {db : StateDB} (hdb : ∀ a b, db a b = none)
    (tn : String) (g : DiGraph) :
    _have_task_or_neighbors_changed db tn g ≠ .ok false := by
  unfold _have_task_or_neighbors_changed node_and_neigbors
  simp only [anyM]
  cases hf : entryChanged db tn g tn with
  | error e => intro h; cases h
  | ok b =>
    cases b
    · exact absurd hf (entryChanged_empty_db hdb tn g tn)
    · intro h; cases h

theorem selStep_markers_empty_db {db : StateDB} (hdb : ∀ a b, db a b = none)
    (s : SelState) (tn n : String) :
    markersOf (selStep db s tn).dag n = markersOf s.dag n := by
  unfold selStep
  cases s.err with
  | some e => rfl
  | none =>
    by_cases hv : tn ∈ s.visited
    · rw [if_pos hv]
    · rw [if_neg hv]
      cases hch : _have_task_or_neighbors_changed db tn s.dag with
      | error e => rfl
      | ok b =>
        cases b
        · exact absurd hch (have_changed_empty_db hdb tn s.dag)
        · rfl

/-- C6: First-run conservatism: with a persisted-state store holding no
record at all, a selection pass changes no task's marker list — in
particular no task acquires a `skip_unchanged` marker — for any graph and
any processing order. -/
theorem first_run_conservatism (db : StateDB) (g : DiGraph) (order : List String)
    (hdb : ∀ a b, db a b = none) (name : String) :
    markersOf (select_loop db order g).dag name = markersOf g name
    ∧ (skipMark ∉ markersOf g name →
        skipMark ∉ markersOf (select_loop db order g).dag name) := by
  have main : ∀ (ord : List String) (s : SelState),
      markersOf (ord.foldl (selStep db) s).dag name = markersOf s.dag name := by
    intro ord
    induction ord with
    | nil => intro s; rfl
    | cons tn ord ih =>
      intro s
      simp only [List.foldl_cons]
      rw [ih, selStep_markers_empty_db hdb]
  have h1 : markersOf (select_loop db order g).dag name = markersOf g name :=
    main order ⟨g, [], none⟩
  exact ⟨h1, fun hnm hmem => hnm (h1 ▸ hmem)⟩

theorem first_run_conservatism_witness :
    markersOf (select_loop dbEmpty ["A", "B"] g0).dag "A" = markersOf g0 "A"
    ∧ skipMark ∉ markersOf (select_loop dbEmpty ["A", "B"] g0).dag "A" := by
  have h := first_run_conservatism dbEmpty g0 ["A", "B"] (fun _ _ => rfl) "A"
  exact ⟨h.1, h.2 (by decide)⟩

/-- C7 (amended): resolution either succeeds, returning `True` with the
annotated graph stored on the session and the report untouched, or any
stage's exception is caught once, recorded as a report on the session, and
surfaced as the single unified `ResolvingDependenciesError`; in both cases
the session's `dag` field is set — so on a selection failure the session
retains the partially annotated graph. -/
theorem resolution_failure_unification (db : StateDB) (s : Session) :
    ((pytask_resolve_dependencies db s).2 = .ok true
      ∧ (pytask_resolve_dependencies db s).1.resolving_dependencies_report =
          s.resolving_dependencies_report
      ∧ ∃ d, (pytask_resolve_dependencies db s).1.dag = some d)
    ∨ ((pytask_resolve_dependencies db s).2 = .error .resolvingDependenciesError
      ∧ (∃ e, (pytask_resolve_dependencies db s).1.resolving_dependencies_report =
          some ⟨e⟩)
      ∧ ∃ d, (pytask_resolve_dependencies db s).1.dag = some d) := by
  simp only [pytask_resolve_dependencies]
  cases hv : pytask_resolve_dependencies_validate_dag (create_dag s.tasks) with
  | error e =>
    right
    exact ⟨rfl, ⟨e, rfl⟩, ⟨create_dag s.tasks, rfl⟩⟩
  | ok u =>
    cases u
    cases hsel :
        (pytask_resolve_dependencies_select_execution_dag db (create_dag s.tasks)).2 with
    | some e =>
      right
      exact ⟨rfl, ⟨e, rfl⟩,
        ⟨(pytask_resolve_dependencies_select_execution_dag db (create_dag s.tasks)).1,
          rfl⟩⟩
    | none =>
      left
      exact ⟨rfl, rfl,
        ⟨(pytask_resolve_dependencies_select_execution_dag db (create_dag s.tasks)).1,
          rfl⟩⟩

/-- A session whose first task is stable (it gets a marker) and whose
second task's product state query faults: resolution fails, yet the
session keeps the partially annotated graph. -/
def s7 : Session :=
  ⟨[⟨"T1", [], [⟨"p1", .ok 7⟩], [], .ok 3⟩,
    ⟨"T2", [], [⟨"p2", .error .other⟩], [], .ok 4⟩], none, none⟩

/-- Records matching `T1`'s whole neighborhood and `T2`'s own state. -/
def db7 : StateDB := fun t n =>
  if t == "T1" && n == "T1" then some 3
  else if t == "T1" && n == "p1" then some 7
  else if t == "T2" && n == "T2" then some 4
  else none

theorem resolution_atomicity_counterexample :
    (pytask_resolve_dependencies db7 s7).2 = .error .resolvingDependenciesError
    ∧ markersOf ((pytask_resolve_dependencies db7 s7).1.dag.getD DiGraph.empty) "T1" =
        [skipMark] := by
  refine ⟨by decide, by decide⟩

end Pytask
